import Mathlib

/-!
# Verification of the godns DNS stack against its specification

Shallow embedding of the repository's code: the resolver configuration
parser (`resolver/config.go`), the funkensturm filtering proxy
(`_examples/funkensturm/funkensturm.go`), the xfrprx zone-transfer proxy
handler, and — modelled from the spec where the `dns` package sources are
not available — the wire codec and the zone-transfer state machine.
-/

namespace Dns

/-- A domain name: a list of labels, each label a list of bytes
(Go stores names as strings; on the wire each label is length-prefixed). -/
abbrev Name := List (List Nat)

/-- Modelled from the spec: validity of a domain name for the wire codec
(`msg.go` is not under src): every label is nonempty and at most 63 bytes,
all bytes fit in one octet. -/
def ValidName (n : Name) : Bool :=
  n.all fun l => 0 < l.length && l.length < 64 && l.all (· < 256)

/-- Modelled from the spec: typed resource-record payloads for the record
types the spec requires at minimum (address records, text records, TSIG,
SOA, and the DNSSEC family), `types.go` not being under src. -/
inductive RData where
  | a (ip : List Nat)
  | aaaa (ip : List Nat)
  | txt (s : List Nat)
  | soa (mname rname : Name) (serial refresh retry expire minttl : Nat)
  | dnskey (flags protocol alg : Nat) (key : List Nat)
  | rrsig (typeCovered alg labels origTtl expiration inception keyTag : Nat)
      (signer : Name) (sig : List Nat)
  | nsec3 (hashAlg flags iterations : Nat) (salt next bitmap : List Nat)
  | tsig (algName : Name) (timeSigned fudge : Nat) (mac : List Nat)
      (origId errCode : Nat) (other : List Nat)
deriving Repr, DecidableEq

/-- The wire type code of a payload (A=1, SOA=6, TXT=16, AAAA=28,
RRSIG=46, DNSKEY=48, NSEC3=50, TSIG=250). -/
def RData.code : RData → Nat
  | .a _ => 1
  | .soa _ _ _ _ _ _ _ => 6
  | .txt _ => 16
  | .aaaa _ => 28
  | .rrsig _ _ _ _ _ _ _ _ _ => 46
  | .dnskey _ _ _ _ => 48
  | .nsec3 _ _ _ _ _ _ => 50
  | .tsig _ _ _ _ _ _ _ => 250

/-- A resource record: common header (owner name, class, TTL) plus typed
payload; the wire type code is determined by the payload. -/
structure RR where
  Name : Name
  Class : Nat
  Ttl : Nat
  Rdata : RData
deriving Repr, DecidableEq

/-- A question section entry, as in Go `type Question`. -/
structure Question where
  Name : Name
  Qtype : Nat
  Qclass : Nat
deriving Repr, DecidableEq

/-- The message header, fields as in Go `type MsgHdr` in types.go. -/
structure MsgHdr where
  Id : Nat
  Response : Bool
  Opcode : Nat
  Authoritative : Bool
  Truncated : Bool
  RecursionDesired : Bool
  RecursionAvailable : Bool
  Zero : Bool
  AuthenticatedData : Bool
  CheckingDisabled : Bool
  Rcode : Nat
deriving Repr, DecidableEq

/-- A DNS message, fields as in Go `type Msg`: header, question section and
the three record sections (answer, authority, additional). -/
structure Msg where
  MsgHdr : MsgHdr
  Question : List Question
  Answer : List RR
  Ns : List RR
  Extra : List RR
deriving Repr, DecidableEq

end Dns

namespace DnsResolver

/-- The resolver configuration, fields as in Go `type Resolver` used by
`FromFile` in resolver/config.go. -/
structure Resolver where
  Servers : List String
  Search : List String
  Ndots : Nat
  Timeout : Nat
  Attempts : Nat
  Rotate : Bool
deriving Repr, DecidableEq

/-- A Go runtime panic raised during parsing (slice bounds out of range). -/
inductive Panic where
  | sliceOutOfRange
deriving Repr, DecidableEq

/-- Modelled from the spec: the helper `dtoi` (decimal parse starting at a
byte offset, from the Go net package's parse.go, not under src): reads
digits, returns 0 on overflow past 0xFFFFFF or when no digit is present. -/
def dtoiAux : List Char → Nat → Nat
  | [], n => n
  | c :: cs, n =>
    if c.isDigit then
      let m := n * 10 + (c.toNat - 48)
      if m ≥ 0xFFFFFF then 0 else dtoiAux cs m
    else n

/-- `dtoi s i0` as used by FromFile (only the numeric result is consumed). -/
def dtoi (s : String) (i0 : Nat) : Nat :=
  dtoiAux (s.toList.drop i0) 0

/-- One token of an `options` line, mirroring the switch in
resolver/config.go lines 65-90. The Go case
`len(s) >= 8 && s[0:9] == "attempts:"` slices nine bytes after checking
only eight, so a token of length exactly eight that reaches the third case
panics with a slice-bounds failure. -/
def optionsToken (r : Resolver) (s : String) : Except Panic Resolver :=
  if s.toList.length ≥ 6 && s.toList.take 6 == "ndots:".toList then
    let n := dtoi s 6
    .ok { r with Ndots := if n < 1 then 1 else n }
  else if s.toList.length ≥ 8 && s.toList.take 8 == "timeout:".toList then
    let n := dtoi s 8
    .ok { r with Timeout := if n < 1 then 1 else n }
  else if s.toList.length ≥ 8 then
    if s.toList.length < 9 then .error .sliceOutOfRange
    else if s.toList.take 9 == "attempts:".toList then
      let n := dtoi s 9
      .ok { r with Attempts := if n < 1 then 1 else n }
    else if s == "rotate" then .ok { r with Rotate := true }
    else .ok r
  else if s == "rotate" then .ok { r with Rotate := true }
  else .ok r

/-- The `options` case: fold over the tokens after the directive word. -/
def optionsLine (r : Resolver) : List String → Except Panic Resolver
  | [] => .ok r
  | s :: rest =>
    match optionsToken r s with
    | .error p => .error p
    | .ok r' => optionsLine r' rest

/-- The `nameserver` case of FromFile, parametrised by the byte length that
`net.ParseIP` would return for a token (0 for not-an-IP, 4 for IPv4,
16 for IPv6). The servers slice is backed by a three-element array, so a
new entry is appended only while fewer than three are held. -/
def nameserverLine (ipLen : String → Nat) (r : Resolver) (f : List String) :
    Resolver :=
  if f.length > 1 && r.Servers.length < 3 then
    if ipLen (f.getD 1 "") == 16 then
      { r with Servers := r.Servers ++ ["[" ++ f.getD 1 "" ++ "]"] }
    else if ipLen (f.getD 1 "") == 4 then
      { r with Servers := r.Servers ++ [f.getD 1 ""] }
    else r
  else r

/-- One configuration line (already split into fields, as `getFields`
would produce), mirroring the switch on `f[0]` in FromFile. -/
def processLine (ipLen : String → Nat) (r : Resolver) (f : List String) :
    Except Panic Resolver :=
  match f with
  | [] => .ok r
  | f0 :: rest =>
    if f0 == "nameserver" then .ok (nameserverLine ipLen r (f0 :: rest))
    else if f0 == "domain" then
      .ok { r with Search := match rest with | [] => [] | x :: _ => [x] }
    else if f0 == "search" then .ok { r with Search := rest }
    else if f0 == "options" then optionsLine r rest
    else .ok r

/-- The line loop of FromFile. -/
def fromFileGo (ipLen : String → Nat) :
    Resolver → List (List String) → Except Panic Resolver
  | r, [] => .ok r
  | r, f :: rest =>
    match processLine ipLen r f with
    | .error p => .error p
    | .ok r' => fromFileGo ipLen r' rest

/-- The field values FromFile resets before reading any line
(config.go lines 20-25). -/
def initResolver : Resolver :=
  { Servers := [], Search := [], Ndots := 1, Timeout := 5, Attempts := 2,
    Rotate := false }

/-- `Resolver.FromFile`, over the sequence of field-split lines of the
configuration file. -/
def FromFile (ipLen : String → Nat) (lines : List (List String)) :
    Except Panic Resolver :=
  fromFileGo ipLen initResolver lines

/-- A well-formed servers entry: some token parsed as an IP address —
stored bracketed when `net.ParseIP` returned a 16-byte address, verbatim
when it returned a 4-byte address. -/
def serverOk (ipLen : String → Nat) (e : String) : Prop :=
  ∃ t, (ipLen t = 16 ∧ e = "[" ++ t ++ "]") ∨ (ipLen t = 4 ∧ e = t)

end DnsResolver

namespace Funkensturm

/-- Packet direction / boolean operator constants from the funkensturm
const block (`IN = iota; OUT; OR; AND`, so 0, 1, 2, 3). -/
def IN : Nat := 0

/-- See `IN`. -/
def OUT : Nat := 1

/-- See `IN`. -/
def OR : Nat := 2

/-- See `IN`. -/
def AND : Nat := 3

/-- A Match stage: a chaining operator and a function that may modify the
packet and reports whether it matched (Go passes `*dns.Msg`, which may be
nil, hence `Option`). -/
structure Match where
  Op : Nat
  Func : Option Dns.Msg → Nat → Option Dns.Msg × Bool

/-- An Action stage: receives the (possibly modified) packet and the match
verdict, returns the packet to send (possibly nil). -/
structure Action where
  Func : Option Dns.Msg → Bool → Option Dns.Msg

/-- The funkensturm configuration: setup hook, match stages, actions. -/
structure Funkensturm where
  Setup : Unit → Bool
  Matches : List Match
  Actions : List Action

/-- The IN match loop of `doFunkensturm`, one recursive step per loop
iteration: each stage receives the previous stage's packet; the running
verdict is combined with each stage's result with `&&` when `Op` is `AND`,
with `||` when `Op` is `OR`, and is left unchanged for any other operator
value (the Go switch has no default case). -/
def runMatchesInGo : List Match → Option Dns.Msg × Bool →
    Option Dns.Msg × Bool
  | [], acc => acc
  | m :: rest, acc =>
    runMatchesInGo rest
      ((m.Func acc.1 IN).1,
        if m.Op == AND then acc.2 && (m.Func acc.1 IN).2
        else if m.Op == OR then acc.2 || (m.Func acc.1 IN).2
        else acc.2)

/-- The IN match loop started with verdict `true` (`ok, ok1 := true, true`). -/
def runMatchesIn (ms : List Match) (p : Option Dns.Msg) :
    Option Dns.Msg × Bool :=
  runMatchesInGo ms (p, true)

/-- The action loop: every action is called on the same packet and verdict;
only the last action's result is kept (`resultpkt` is overwritten), and it
is nil when there are no actions. -/
def runActions (as : List Action) (p : Option Dns.Msg) (ok : Bool) :
    Option Dns.Msg :=
  as.foldl (fun _ a => a.Func p ok) none

/-- The OUT match loop: stages are chained on the packet, verdicts are
discarded. -/
def runMatchesOut (ms : List Match) (p : Option Dns.Msg) : Option Dns.Msg :=
  ms.foldl (fun q m => (m.Func q OUT).1) p

/-- The tail of `doFunkensturm` after the IN match loop: run the actions on
the match result, run the OUT loop, then pack the final packet; a nil
packet means nothing is sent, and a pack failure is reported as an error. -/
def afterMatches (f : Funkensturm) (pack : Dns.Msg → Option (List Nat))
    (mr : Option Dns.Msg × Bool) : Except String (Option (List Nat)) :=
  let resultpkt := runActions f.Actions mr.1 mr.2
  match runMatchesOut f.Matches resultpkt with
  | none => .ok none
  | some p =>
    match pack p with
    | none => .error "Packing packet failed"
    | some out => .ok (some out)

/-- `doFunkensturm`, parametrised by the configuration and by `Msg.Pack`
(whose body lives in the dns package): refuse messages with the response
bit set, otherwise run the match/action/out pipeline. -/
def doFunkensturm (f : Funkensturm) (pack : Dns.Msg → Option (List Nat))
    (pkt : Dns.Msg) : Except String (Option (List Nat)) :=
  if pkt.MsgHdr.Response then .error "Response bit set, not replying"
  else afterMatches f pack (runMatchesIn f.Matches (some pkt))

/-- `reply`: the bytes written to the connection, if any — nothing is
written when `doFunkensturm` errors or returns nil bytes. -/
def reply (f : Funkensturm) (pack : Dns.Msg → Option (List Nat))
    (i : Dns.Msg) : Option (List Nat) :=
  match doFunkensturm f pack i with
  | .error _ => none
  | .ok none => none
  | .ok (some out) => some out

/-- The verdict chain as the specification describes it: a left-to-right
fold starting from `true`, combining each stage's result with its declared
operator — conjunction for `AND`, disjunction for `OR` — with the possibly
modified message of stage n fed into stage n+1. -/
def specChain (ms : List Match) (p : Option Dns.Msg) (v : Bool) :
    Option Dns.Msg × Bool :=
  match ms with
  | [] => (p, v)
  | m :: rest =>
    let r := m.Func p IN
    specChain rest r.1 (if m.Op == AND then v && r.2 else v || r.2)

end Funkensturm

namespace Xfrprx

/-- The xfrprx zone store (`type zone struct` in the proxy source): a name,
a record buffer backed by a static 10000-element array together with its
fill count (modelled as a list), and the "verified correct" flag. -/
structure ZoneT where
  name : String
  rrs : List Dns.RR
  correct : Bool
deriving Repr, DecidableEq

/-- The capacity of the zone's record buffer (`rrs [10000]dns.RR`). -/
def zoneCapacity : Nat := 10000

/-- The xfrprx `handle` callback, parametrised by `handleNotify` and
`handleXfrOut` (whose bodies are in files not under src): a message with
the response bit set is dropped before anything runs; otherwise both
sub-handlers run on the zone store in order and, when a zone has been
transferred (`Zone.name != ""`), the `correct` flag is set to false
("For now assume ok."). Each sub-handler returns the new store plus the
byte strings it wrote to the connection. -/
def handle (hNotify hXfrOut : Dns.Msg → ZoneT → ZoneT × List (List Nat))
    (z : ZoneT) (i : Dns.Msg) : ZoneT × List (List Nat) :=
  if i.MsgHdr.Response then (z, [])
  else
    let r1 := hNotify i z
    let r2 := hXfrOut i r1.1
    let z3 := if r2.1.name ≠ "" then { r2.1 with correct := false } else r2.1
    (z3, r1.2 ++ r2.2)

end Xfrprx

namespace Transfer

/-- Modelled from the spec: the transfer state machine of §4.3 (the
`xfr.go` sources are not under src). -/
inductive XfrState where
  | Idle
  | NotifyReceived
  | TransferRequested
  | Streaming
  | Verifying
  | Committed
  | Aborted
deriving Repr, DecidableEq

/-- Modelled from the spec: the error kinds a transfer can abort with. -/
inductive TransferError where
  | connectionError
  | malformedStream
  | verificationFailed
  | bufferOverflow
  | serialNotNewer
deriving Repr, DecidableEq

/-- Modelled from the spec: the events driving one transfer attempt —
a NOTIFY carrying the remote serial, the outcome of opening the TCP
connection, each streamed record, a malformed chunk, the terminating SOA,
and the verdict of the Authentication Layer. -/
inductive Event where
  | notify (serial : Nat)
  | connOk
  | connFail
  | record (r : Dns.RR)
  | malformed
  | endOfStream (newSerial : Nat)
  | verifyResult (ok : Bool)
deriving Repr

/-- Modelled from the spec: the engine state for one zone — the live Zone
Store, the locally held serial, the scratch buffer records accumulate in,
the serial announced by the stream, the machine state and the reported
error. -/
structure Engine where
  live : Xfrprx.ZoneT
  localSerial : Nat
  scratch : List Dns.RR
  pendingSerial : Nat
  state : XfrState
  err : Option TransferError
deriving Repr

/-- Modelled from the spec: one step of the transfer state machine.
Records accumulate only in the scratch buffer; a record that would push
the buffer past `zoneCapacity` aborts with an overflow; only a successful
verification replaces the live Zone Store's contents and sets `correct`;
every failure moves to `Aborted` leaving the live store untouched;
`Committed` and `Aborted` are terminal. -/
def step (e : Engine) (ev : Event) : Engine :=
  match e.state, ev with
  | .Idle, .notify s =>
    if e.localSerial < s then { e with state := .NotifyReceived, scratch := [] }
    else { e with state := .Idle, err := some .serialNotNewer }
  | .NotifyReceived, .connOk => { e with state := .Streaming }
  | .NotifyReceived, .connFail =>
    { e with state := .Aborted, err := some .connectionError }
  | .Streaming, .record r =>
    if e.scratch.length + 1 > Xfrprx.zoneCapacity then
      { e with state := .Aborted, err := some .bufferOverflow }
    else { e with scratch := e.scratch ++ [r] }
  | .Streaming, .malformed =>
    { e with state := .Aborted, err := some .malformedStream }
  | .Streaming, .connFail =>
    { e with state := .Aborted, err := some .connectionError }
  | .Streaming, .endOfStream s =>
    { e with state := .Verifying, pendingSerial := s }
  | .Verifying, .verifyResult ok =>
    if ok then
      { e with
        state := .Committed,
        live := { name := e.live.name, rrs := e.scratch, correct := true },
        localSerial := e.pendingSerial,
        scratch := [] }
    else { e with state := .Aborted, err := some .verificationFailed }
  | _, _ => e

/-- Run the machine over a list of events. -/
def run (e : Engine) (evs : List Event) : Engine :=
  evs.foldl step e

end Transfer

namespace Dns

/-! ### The wire codec, modelled from the spec

`msg.go` (the Pack/Unpack codec) is not under src; the codec below is
modelled from the spec's contract in §4.1: label-length-prefixed domain
names with suffix compression via back pointers, record counts in the
header driving the decoder, resource-data length written before each typed
payload. -/

/-- Big-endian two-byte encoding of a 16-bit field. -/
def encodeU16 (n : Nat) : List Nat := [n / 256 % 256, n % 256]

/-- Big-endian four-byte encoding of a 32-bit field. -/
def encodeU32 (n : Nat) : List Nat :=
  [n / 2 ^ 24 % 256, n / 2 ^ 16 % 256, n / 256 % 256, n % 256]

/-- Big-endian six-byte encoding of a 48-bit field (TSIG signing time). -/
def encodeU48 (n : Nat) : List Nat :=
  [n / 2 ^ 40 % 256, n / 2 ^ 32 % 256, n / 2 ^ 24 % 256, n / 2 ^ 16 % 256,
   n / 256 % 256, n % 256]

/-- Read one byte from a resource-data byte stream. -/
def readU8 : List Nat → Option (Nat × List Nat)
  | [] => none
  | b :: r => some (b, r)

/-- Read a big-endian 16-bit field from a resource-data byte stream. -/
def readU16 : List Nat → Option (Nat × List Nat)
  | b0 :: b1 :: r => some (b0 * 256 + b1, r)
  | _ => none

/-- Read a big-endian 32-bit field from a resource-data byte stream. -/
def readU32 : List Nat → Option (Nat × List Nat)
  | b0 :: b1 :: b2 :: b3 :: r =>
    some (((b0 * 256 + b1) * 256 + b2) * 256 + b3, r)
  | _ => none

/-- Read a big-endian 48-bit field from a resource-data byte stream. -/
def readU48 : List Nat → Option (Nat × List Nat)
  | b0 :: b1 :: b2 :: b3 :: b4 :: b5 :: r =>
    some (((((b0 * 256 + b1) * 256 + b2) * 256 + b3) * 256 + b4) * 256 + b5,
      r)
  | _ => none

/-- Read a counted run of bytes from a resource-data byte stream. -/
def readN (k : Nat) (bs : List Nat) : Option (List Nat × List Nat) :=
  if bs.length < k then none else some (bs.take k, bs.drop k)

/-- Uncompressed name encoding (used inside resource data): each label
length-prefixed, terminated by a zero byte. -/
def encodeNameU (n : Name) : List Nat :=
  (n.map fun l => l.length :: l).flatten ++ [0]

/-- Uncompressed name reader, fuel-bounded by the stream length. -/
def readNameUGo : Nat → List Nat → Option (Name × List Nat)
  | _, [] => none
  | 0, _ :: _ => none
  | fuel + 1, c :: r =>
    if c = 0 then some ([], r)
    else if c < 64 then
      if r.length < c then none
      else
        match readNameUGo fuel (r.drop c) with
        | some (n, rest) => some (r.take c :: n, rest)
        | none => none
    else none

/-- Read an uncompressed name from a resource-data byte stream. -/
def readNameU (bs : List Nat) : Option (Name × List Nat) :=
  readNameUGo bs.length bs

/-- The wire encoding of a typed payload (resource data only, without the
record header). -/
def encodeRData : RData → List Nat
  | .a ip => ip
  | .aaaa ip => ip
  | .txt s => s.length :: s
  | .soa mn rn serial refresh retry expire minttl =>
    encodeNameU mn ++ encodeNameU rn ++ encodeU32 serial ++
      encodeU32 refresh ++ encodeU32 retry ++ encodeU32 expire ++
      encodeU32 minttl
  | .dnskey flags protocol alg key =>
    encodeU16 flags ++ protocol :: alg :: key
  | .rrsig tc alg labels origTtl expiration inception keyTag signer sig =>
    encodeU16 tc ++ alg :: labels :: (encodeU32 origTtl ++
      encodeU32 expiration ++ encodeU32 inception ++ encodeU16 keyTag ++
      encodeNameU signer ++ sig)
  | .nsec3 ha fl it salt next bitmap =>
    ha :: fl :: (encodeU16 it ++ salt.length :: (salt ++
      next.length :: (next ++ bitmap)))
  | .tsig alg t fudge mac origId errC other =>
    encodeNameU alg ++ encodeU48 t ++ encodeU16 fudge ++
      encodeU16 mac.length ++ mac ++ encodeU16 origId ++ encodeU16 errC ++
      encodeU16 other.length ++ other

/-- Decode a typed payload from exactly the resource-data bytes, dispatched
on the wire type code; the declared resource-data length is authoritative:
payloads that do not consume the slice exactly are rejected. -/
def decodeRData (ty : Nat) (bs : List Nat) : Option RData :=
  match ty with
  | 1 => if bs.length = 4 then some (.a bs) else none
  | 28 => if bs.length = 16 then some (.aaaa bs) else none
  | 16 =>
    match bs with
    | len :: s => if s.length = len then some (.txt s) else none
    | [] => none
  | 6 => do
    let (mn, r1) ← readNameU bs
    let (rn, r2) ← readNameU r1
    let (serial, r3) ← readU32 r2
    let (refresh, r4) ← readU32 r3
    let (retry, r5) ← readU32 r4
    let (expire, r6) ← readU32 r5
    let (minttl, r7) ← readU32 r6
    match r7 with
    | [] => some (.soa mn rn serial refresh retry expire minttl)
    | _ :: _ => none
  | 48 => do
    let (flags, r1) ← readU16 bs
    let (protocol, r2) ← readU8 r1
    let (alg, r3) ← readU8 r2
    some (.dnskey flags protocol alg r3)
  | 46 => do
    let (tc, r1) ← readU16 bs
    let (alg, r2) ← readU8 r1
    let (labels, r3) ← readU8 r2
    let (origTtl, r4) ← readU32 r3
    let (expiration, r5) ← readU32 r4
    let (inception, r6) ← readU32 r5
    let (keyTag, r7) ← readU16 r6
    let (signer, r8) ← readNameU r7
    some (.rrsig tc alg labels origTtl expiration inception keyTag signer r8)
  | 50 => do
    let (ha, r1) ← readU8 bs
    let (fl, r2) ← readU8 r1
    let (it, r3) ← readU16 r2
    let (sl, r4) ← readU8 r3
    let (salt, r5) ← readN sl r4
    let (nl, r6) ← readU8 r5
    let (next, r7) ← readN nl r6
    some (.nsec3 ha fl it salt next r7)
  | 250 => do
    let (alg, r1) ← readNameU bs
    let (t, r2) ← readU48 r1
    let (fudge, r3) ← readU16 r2
    let (macLen, r4) ← readU16 r3
    let (mac, r5) ← readN macLen r4
    let (origId, r6) ← readU16 r5
    let (errC, r7) ← readU16 r6
    let (otherLen, r8) ← readU16 r7
    let (other, r9) ← readN otherLen r8
    match r9 with
    | [] => some (.tsig alg t fudge mac origId errC other)
    | _ :: _ => none
  | _ => none

/-- Compressed name encoding into a growing message buffer: a table maps
previously written name suffixes to their offsets; a known suffix is
replaced by a two-byte back pointer (high bits `11`), otherwise the head
label is written and the suffix recorded (only offsets below `0x4000` are
representable in a pointer). -/
def encodeName : Name → List Nat → List (Name × Nat) →
    List Nat × List (Name × Nat)
  | [], buf, t => (buf ++ [0], t)
  | l :: rest, buf, t =>
    match List.lookup (l :: rest) t with
    | some off => (buf ++ [192 + off / 256, off % 256], t)
    | none =>
      encodeName rest (buf ++ l.length :: l)
        (if buf.length < 16384 then ((l :: rest), buf.length) :: t else t)

/-- One literal-label run of the compressed-name decoder: read labels until
a terminator or a back pointer; a pointer must point strictly backwards
(this bounds pointer chases and rejects cycles) and is followed through
`jump`; the step budget bounds the label loop. -/
def decodeLabels (B : List Nat) (jump : Nat → Option (Name × Nat)) :
    Nat → Nat → Option (Name × Nat)
  | 0, _ => none
  | step + 1, pos =>
    match B[pos]? with
    | none => none
    | some c =>
      if c = 0 then some ([], pos + 1)
      else if c < 64 then
        if ((B.drop (pos + 1)).take c).length = c then
          match decodeLabels B jump step (pos + 1 + c) with
          | some (n, e) => some ((B.drop (pos + 1)).take c :: n, e)
          | none => none
        else none
      else if 192 ≤ c then
        match B[pos + 1]? with
        | none => none
        | some c2 =>
          if (c - 192) * 256 + c2 < pos then
            match jump ((c - 192) * 256 + c2) with
            | some (n, _) => some (n, pos + 2)
            | none => none
          else none
      else none

/-- The compressed-name decoder with a bounded number of pointer hops. -/
def decodeNameHops (B : List Nat) : Nat → Nat → Option (Name × Nat)
  | 0, _ => none
  | hop + 1, pos => decodeLabels B (decodeNameHops B hop) (B.length + 1) pos

/-- Decode a compressed name at an absolute offset of the message buffer,
returning the name and the cursor position after it. -/
def decodeName (B : List Nat) (pos : Nat) : Option (Name × Nat) :=
  decodeNameHops B (B.length + 1) pos

/-- `SpelledAt B pos nm e g`: the buffer `B` spells the name `nm` starting
at `pos`, ending exactly at cursor `e`, following `g` back pointers. This
mirrors the success conditions of `decodeLabels`. -/
inductive SpelledAt (B : List Nat) : Nat → Name → Nat → Nat → Prop where
  | term {pos : Nat} : B[pos]? = some 0 → SpelledAt B pos [] (pos + 1) 0
  | label {pos : Nat} {l : List Nat} {rest : Name} {e g : Nat} :
      B[pos]? = some l.length → 0 < l.length → l.length < 64 →
      (B.drop (pos + 1)).take l.length = l →
      SpelledAt B (pos + 1 + l.length) rest e g →
      SpelledAt B pos (l :: rest) e g
  | ptr {pos c c2 off : Nat} {nm : Name} {e g : Nat} :
      B[pos]? = some c → 192 ≤ c → c < 256 → B[pos + 1]? = some c2 →
      (c - 192) * 256 + c2 = off → off < pos →
      SpelledAt B off nm e g →
      SpelledAt B pos nm (pos + 2) (g + 1)

/-- A usable compression-table entry: its offset is pointer-representable,
lies inside the buffer, and the buffer spells the entry's name there with
a hop count bounded by the offset. -/
def GoodEntry (B : List Nat) (p : Name × Nat) : Prop :=
  p.2 < 16384 ∧ p.2 < B.length ∧
  ∃ e g, SpelledAt B p.2 p.1 e g ∧ g ≤ p.2 + 1

/-- Encode a question: name (compressed), type, class. -/
def encodeQuestion (q : Question) (acc : List Nat × List (Name × Nat)) :
    List Nat × List (Name × Nat) :=
  ((encodeName q.Name acc.1 acc.2).1 ++ encodeU16 q.Qtype ++
    encodeU16 q.Qclass, (encodeName q.Name acc.1 acc.2).2)

/-- Encode the question section. -/
def encodeQuestions : List Question → List Nat × List (Name × Nat) →
    List Nat × List (Name × Nat)
  | [], acc => acc
  | q :: qs, acc => encodeQuestions qs (encodeQuestion q acc)

/-- Encode a resource record: owner name (compressed), type code, class,
TTL, resource-data length, resource data. -/
def encodeRR (rr : RR) (acc : List Nat × List (Name × Nat)) :
    List Nat × List (Name × Nat) :=
  ((encodeName rr.Name acc.1 acc.2).1 ++ encodeU16 rr.Rdata.code ++
    encodeU16 rr.Class ++ encodeU32 rr.Ttl ++
    encodeU16 (encodeRData rr.Rdata).length ++ encodeRData rr.Rdata,
   (encodeName rr.Name acc.1 acc.2).2)

/-- Encode a record section. -/
def encodeRRs : List RR → List Nat × List (Name × Nat) →
    List Nat × List (Name × Nat)
  | [], acc => acc
  | rr :: rrs, acc => encodeRRs rrs (encodeRR rr acc)

/-- `1` for `true`, `0` for `false` (header flag bits). -/
def boolBit (b : Bool) : Nat := if b then 1 else 0

/-- The header's third byte: QR bit, opcode, AA, TC, RD. -/
def hdrByte2 (h : MsgHdr) : Nat :=
  boolBit h.Response * 128 + h.Opcode * 8 + boolBit h.Authoritative * 4 +
    boolBit h.Truncated * 2 + boolBit h.RecursionDesired

/-- The header's fourth byte: RA, Z, AD, CD, rcode. -/
def hdrByte3 (h : MsgHdr) : Nat :=
  boolBit h.RecursionAvailable * 128 + boolBit h.Zero * 64 +
    boolBit h.AuthenticatedData * 32 + boolBit h.CheckingDisabled * 16 +
    h.Rcode

/-- Encode a whole message: 12-byte header whose counts are the section
lengths, then questions and the three record sections sharing one
compression table. -/
def encodeMsgRaw (m : Msg) : List Nat :=
  (encodeRRs m.Extra (encodeRRs m.Ns (encodeRRs m.Answer (encodeQuestions
    m.Question
    (encodeU16 m.MsgHdr.Id ++ hdrByte2 m.MsgHdr :: hdrByte3 m.MsgHdr ::
      (encodeU16 m.Question.length ++ encodeU16 m.Answer.length ++
       encodeU16 m.Ns.length ++ encodeU16 m.Extra.length), []))))).1

/-- Validity of a typed payload: every numeric field fits its wire width,
counted byte runs fit their one- or two-byte counters, and names are
valid. -/
def ValidRData : RData → Bool
  | .a ip => ip.length == 4 && ip.all (· < 256)
  | .aaaa ip => ip.length == 16 && ip.all (· < 256)
  | .txt s => s.length < 256 && s.all (· < 256)
  | .soa mn rn serial refresh retry expire minttl =>
    ValidName mn && ValidName rn && serial < 2 ^ 32 && refresh < 2 ^ 32 &&
      retry < 2 ^ 32 && expire < 2 ^ 32 && minttl < 2 ^ 32
  | .dnskey flags protocol alg key =>
    flags < 2 ^ 16 && protocol < 256 && alg < 256 && key.all (· < 256)
  | .rrsig tc alg labels origTtl expiration inception keyTag signer sig =>
    tc < 2 ^ 16 && alg < 256 && labels < 256 && origTtl < 2 ^ 32 &&
      expiration < 2 ^ 32 && inception < 2 ^ 32 && keyTag < 2 ^ 16 &&
      ValidName signer && sig.all (· < 256)
  | .nsec3 ha fl it salt next bitmap =>
    ha < 256 && fl < 256 && it < 2 ^ 16 && salt.length < 256 &&
      salt.all (· < 256) && next.length < 256 && next.all (· < 256) &&
      bitmap.all (· < 256)
  | .tsig alg t fudge mac origId errC other =>
    ValidName alg && t < 2 ^ 48 && fudge < 2 ^ 16 && mac.length < 2 ^ 16 &&
      mac.all (· < 256) && origId < 2 ^ 16 && errC < 2 ^ 16 &&
      other.length < 2 ^ 16 && other.all (· < 256)

/-- Validity of a record for encoding. -/
def ValidRR (rr : RR) : Bool :=
  ValidName rr.Name && rr.Class < 2 ^ 16 && rr.Ttl < 2 ^ 32 &&
    ValidRData rr.Rdata && (encodeRData rr.Rdata).length < 2 ^ 16

/-- Validity of a question for encoding. -/
def ValidQuestion (q : Question) : Bool :=
  ValidName q.Name && q.Qtype < 2 ^ 16 && q.Qclass < 2 ^ 16

/-- Validity of a header for encoding. -/
def ValidMsgHdr (h : MsgHdr) : Bool :=
  h.Id < 2 ^ 16 && h.Opcode < 16 && h.Rcode < 16

/-- A valid constructed message: all fields fit their wire widths and the
section counts fit the 16-bit header counters. -/
def ValidMsg (m : Msg) : Bool :=
  ValidMsgHdr m.MsgHdr && m.Question.all ValidQuestion &&
    m.Answer.all ValidRR && m.Ns.all ValidRR && m.Extra.all ValidRR &&
    m.Question.length < 2 ^ 16 && m.Answer.length < 2 ^ 16 &&
    m.Ns.length < 2 ^ 16 && m.Extra.length < 2 ^ 16

/-- `Msg.Pack`: encoding fails (FormatError) on an invalid message,
otherwise yields the wire bytes. -/
def encodeMsg (m : Msg) : Option (List Nat) :=
  if ValidMsg m then some (encodeMsgRaw m) else none

/-- Read one byte at an absolute buffer offset. -/
def getU8 (B : List Nat) (pos : Nat) : Option Nat := B[pos]?

/-- Read a big-endian 16-bit field at an absolute buffer offset. -/
def getU16 (B : List Nat) (pos : Nat) : Option Nat :=
  match B[pos]?, B[pos + 1]? with
  | some a, some b => some (a * 256 + b)
  | _, _ => none

/-- Read a big-endian 32-bit field at an absolute buffer offset. -/
def getU32 (B : List Nat) (pos : Nat) : Option Nat :=
  match B[pos]?, B[pos + 1]?, B[pos + 2]?, B[pos + 3]? with
  | some a, some b, some c, some d =>
    some (((a * 256 + b) * 256 + c) * 256 + d)
  | _, _, _, _ => none

/-- Rebuild a header from its id and flag bytes. -/
def decodeHdr (id b2 b3 : Nat) : MsgHdr :=
  { Id := id,
    Response := b2 / 128 % 2 == 1,
    Opcode := b2 / 8 % 16,
    Authoritative := b2 / 4 % 2 == 1,
    Truncated := b2 / 2 % 2 == 1,
    RecursionDesired := b2 % 2 == 1,
    RecursionAvailable := b3 / 128 % 2 == 1,
    Zero := b3 / 64 % 2 == 1,
    AuthenticatedData := b3 / 32 % 2 == 1,
    CheckingDisabled := b3 / 16 % 2 == 1,
    Rcode := b3 % 16 }

/-- Decode one question at an absolute offset. -/
def decodeQuestion (B : List Nat) (pos : Nat) : Option (Question × Nat) := do
  let (nm, p1) ← decodeName B pos
  let ty ← getU16 B p1
  let cl ← getU16 B (p1 + 2)
  some (⟨nm, ty, cl⟩, p1 + 4)

/-- Decode a counted run of questions. -/
def decodeQuestions (B : List Nat) : Nat → Nat → Option (List Question × Nat)
  | 0, pos => some ([], pos)
  | k + 1, pos => do
    let (q, p1) ← decodeQuestion B pos
    let (qs, p2) ← decodeQuestions B k p1
    some (q :: qs, p2)

/-- Decode one resource record at an absolute offset: after the typed
payload the cursor lands exactly at the end of the declared resource-data
length. -/
def decodeRR (B : List Nat) (pos : Nat) : Option (RR × Nat) := do
  let (nm, p1) ← decodeName B pos
  let ty ← getU16 B p1
  let cl ← getU16 B (p1 + 2)
  let ttl ← getU32 B (p1 + 4)
  let rdl ← getU16 B (p1 + 8)
  if ((B.drop (p1 + 10)).take rdl).length = rdl then do
    let rd ← decodeRData ty ((B.drop (p1 + 10)).take rdl)
    some (⟨nm, cl, ttl, rd⟩, p1 + 10 + rdl)
  else none

/-- Decode a counted run of records. -/
def decodeRRs (B : List Nat) : Nat → Nat → Option (List RR × Nat)
  | 0, pos => some ([], pos)
  | k + 1, pos => do
    let (rr, p1) ← decodeRR B pos
    let (rrs, p2) ← decodeRRs B k p1
    some (rr :: rrs, p2)

/-- `Msg.Unpack`: read the header, then let its counts drive the question
and record sections. -/
def decodeMsg (B : List Nat) : Option Msg := do
  let id ← getU16 B 0
  let b2 ← getU8 B 2
  let b3 ← getU8 B 3
  let qd ← getU16 B 4
  let an ← getU16 B 6
  let ns ← getU16 B 8
  let ar ← getU16 B 10
  let (qs, p1) ← decodeQuestions B qd 12
  let (ans, p2) ← decodeRRs B an p1
  let (auth, p3) ← decodeRRs B ns p2
  let (extra, _) ← decodeRRs B ar p3
  some ⟨decodeHdr id b2 b3, qs, ans, auth, extra⟩

/-- A sample message covering every supported record type, whose owner
names share the suffix `example.com` so the encoding contains compression
pointers (labels are byte lists: `www`, `mail`, `example`, `com`, ...). -/
def sampleMsg : Msg :=
  { MsgHdr := ⟨4660, false, 0, true, false, true, false, false, false,
      false, 0⟩,
    Question := [⟨[[119, 119, 119], [101, 120, 97, 109, 112, 108, 101],
      [99, 111, 109]], 1, 1⟩],
    Answer := [⟨[[109, 97, 105, 108], [101, 120, 97, 109, 112, 108, 101],
        [99, 111, 109]], 1, 3600, .a [1, 2, 3, 4]⟩,
      ⟨[[101, 120, 97, 109, 112, 108, 101], [99, 111, 109]], 1, 7200,
        .soa [[110, 115], [101, 120, 97, 109, 112, 108, 101], [99, 111, 109]]
          [[104, 111, 115, 116], [101, 120, 97, 109, 112, 108, 101],
           [99, 111, 109]] 5 1 2 3 4⟩],
    Ns := [⟨[[99, 111, 109]], 1, 60, .txt [104, 105]⟩],
    Extra := [⟨[[101, 120, 97, 109, 112, 108, 101], [99, 111, 109]], 1, 30,
        .tsig [[104, 109, 97, 99]] 123456789 300 [9, 9, 9] 4660 0 []⟩,
      ⟨[[101, 120, 97, 109, 112, 108, 101], [99, 111, 109]], 1, 30,
        .dnskey 256 3 13 [7, 7]⟩,
      ⟨[[101, 120, 97, 109, 112, 108, 101], [99, 111, 109]], 1, 30,
        .rrsig 1 13 2 3600 100 50 1111
          [[101, 120, 97, 109, 112, 108, 101], [99, 111, 109]] [5, 5, 5]⟩,
      ⟨[[101, 120, 97, 109, 112, 108, 101], [99, 111, 109]], 1, 30,
        .nsec3 1 0 10 [170] [187, 204] [1, 2]⟩,
      ⟨[[101, 120, 97, 109, 112, 108, 101], [99, 111, 109]], 1, 30,
        .aaaa [0, 0, 0, 0, 0, 0, 0, 0, 0, 0, 0, 0, 0, 0, 0, 1]⟩] }

end Dns


namespace DnsResolver

/-! ### Lemmas about `FromFile` -/

theorem optionsToken_ok_fields {r : Resolver} {s : String} {r' : Resolver}
    (h : optionsToken r s = .ok r') :
    r'.Servers = r.Servers ∧ r'.Search = r.Search := by
  unfold optionsToken at h
  split_ifs at h <;> cases h <;> simp

theorem optionsLine_ok_fields {r : Resolver} {ts : List String} {r' : Resolver}
    (h : optionsLine r ts = .ok r') :
    r'.Servers = r.Servers ∧ r'.Search = r.Search := by
  induction ts generalizing r with
  | nil => cases h; simp
  | cons s rest ih =>
    unfold optionsLine at h
    cases hs : optionsToken r s with
    | error p => rw [hs] at h; cases h
    | ok r1 =>
      rw [hs] at h
      obtain ⟨h1, h2⟩ := optionsToken_ok_fields hs
      obtain ⟨h3, h4⟩ := ih h
      exact ⟨h3.trans h1, h4.trans h2⟩

theorem nameserverLine_fields (ipLen : String → Nat) (r : Resolver)
    (f : List String) :
    (nameserverLine ipLen r f).Ndots = r.Ndots ∧
    (nameserverLine ipLen r f).Timeout = r.Timeout ∧
    (nameserverLine ipLen r f).Attempts = r.Attempts ∧
    (nameserverLine ipLen r f).Rotate = r.Rotate ∧
    (nameserverLine ipLen r f).Search = r.Search := by
  unfold nameserverLine
  split_ifs <;> exact ⟨rfl, rfl, rfl, rfl, rfl⟩

theorem processLine_no_options {ipLen : String → Nat} {r : Resolver}
    {f : List String} (h : f.head? ≠ some "options") :
    ∃ r', processLine ipLen r f = .ok r' ∧
      r'.Ndots = r.Ndots ∧ r'.Timeout = r.Timeout ∧
      r'.Attempts = r.Attempts ∧ r'.Rotate = r.Rotate := by
  cases f with
  | nil => exact ⟨r, rfl, rfl, rfl, rfl, rfl⟩
  | cons f0 rest =>
    simp only [List.head?] at h
    have hf0 : f0 ≠ "options" := by intro he; exact h (by rw [he])
    unfold processLine
    by_cases h1 : f0 = "nameserver"
    · subst h1
      refine ⟨nameserverLine ipLen r ("nameserver" :: rest), rfl, ?_⟩
      obtain ⟨a, b, c, d, _⟩ :=
        nameserverLine_fields ipLen r ("nameserver" :: rest)
      exact ⟨a, b, c, d⟩
    · by_cases h2 : f0 = "domain"
      · subst h2
        exact ⟨_, rfl, rfl, rfl, rfl, rfl⟩
      · by_cases h3 : f0 = "search"
        · subst h3
          exact ⟨_, rfl, rfl, rfl, rfl, rfl⟩
        · refine ⟨r, ?_, rfl, rfl, rfl, rfl⟩
          simp [beq_iff_eq, h1, h2, h3, hf0]

theorem fromFileGo_no_options {ipLen : String → Nat}
    {lines : List (List String)} (r : Resolver)
    (h : ∀ f ∈ lines, f.head? ≠ some "options") :
    ∃ r', fromFileGo ipLen r lines = .ok r' ∧
      r'.Ndots = r.Ndots ∧ r'.Timeout = r.Timeout ∧
      r'.Attempts = r.Attempts ∧ r'.Rotate = r.Rotate := by
  induction lines generalizing r with
  | nil => exact ⟨r, rfl, rfl, rfl, rfl, rfl⟩
  | cons f rest ih =>
    obtain ⟨r1, hr1, a1, b1, c1, d1⟩ :=
      @processLine_no_options ipLen r f (h f (by simp))
    obtain ⟨r2, hr2, a2, b2, c2, d2⟩ :=
      ih (r := r1) (fun g hg => h g (by simp [hg]))
    refine ⟨r2, ?_, a2.trans a1, b2.trans b1, c2.trans c1, d2.trans d1⟩
    unfold fromFileGo
    rw [hr1]
    exact hr2

/-- C6: a configuration with no `options` directive line parses without
error, and the resulting resolver options keep the defaults FromFile
installs before the line loop: `Ndots = 1`, `Timeout = 5`, `Attempts = 2`,
`Rotate = false`. -/
theorem fromFile_defaults_without_options (ipLen : String → Nat)
    (lines : List (List String))
    (h : ∀ f ∈ lines, f.head? ≠ some "options") :
    ∃ r, FromFile ipLen lines = .ok r ∧
      r.Ndots = 1 ∧ r.Timeout = 5 ∧ r.Attempts = 2 ∧ r.Rotate = false := by
  obtain ⟨r, hr, a, b, c, d⟩ := fromFileGo_no_options initResolver h
  exact ⟨r, hr, a, b, c, d⟩

/-- Witness for C6 at a concrete configuration file. -/
theorem fromFile_defaults_without_options_witness :
    ∃ r, FromFile (fun _ => 0)
        [["nameserver", "x"], ["search", "a", "b"]] = .ok r ∧
      r.Ndots = 1 ∧ r.Timeout = 5 ∧ r.Attempts = 2 ∧ r.Rotate = false :=
  fromFile_defaults_without_options (fun _ => 0)
    [["nameserver", "x"], ["search", "a", "b"]]
    (by decide)

/-- C9: the options-token scan is not panic-free — the Go case
`len(s) >= 8 && s[0:9] == "attempts:"` takes a nine-byte slice after
checking only eight bytes, so the eight-byte token "attempts" on an
options line panics with a slice-bounds failure. -/
theorem fromFile_options_attempts_panics :
    FromFile (fun _ => 0) [["options", "attempts"]] =
      .error .sliceOutOfRange := by
  rfl

end DnsResolver

namespace DnsResolver

theorem nameserverLine_invariant (ipLen : String → Nat) (r : Resolver)
    (f : List String) (hlen : r.Servers.length ≤ 3)
    (hall : ∀ e ∈ r.Servers, serverOk ipLen e) :
    (nameserverLine ipLen r f).Servers.length ≤ 3 ∧
    ∀ e ∈ (nameserverLine ipLen r f).Servers, serverOk ipLen e := by
  unfold nameserverLine
  split_ifs with h0 h1 h2
  · simp only [Bool.and_eq_true, decide_eq_true_eq] at h0
    constructor
    · simp only [List.length_append, List.length_cons, List.length_nil]
      omega
    · intro e he
      rcases List.mem_append.mp he with he | he
      · exact hall e he
      · refine ⟨f.getD 1 "", Or.inl ⟨by exact_mod_cast (beq_iff_eq.mp h1), ?_⟩⟩
        simpa using he
  · simp only [Bool.and_eq_true, decide_eq_true_eq] at h0
    constructor
    · simp only [List.length_append, List.length_cons, List.length_nil]
      omega
    · intro e he
      rcases List.mem_append.mp he with he | he
      · exact hall e he
      · refine ⟨f.getD 1 "", Or.inr ⟨by exact_mod_cast (beq_iff_eq.mp h2), ?_⟩⟩
        simpa using he
  · exact ⟨hlen, hall⟩
  · exact ⟨hlen, hall⟩

theorem processLine_invariant {ipLen : String → Nat} {r r' : Resolver}
    {f : List String} (h : processLine ipLen r f = .ok r')
    (hlen : r.Servers.length ≤ 3)
    (hall : ∀ e ∈ r.Servers, serverOk ipLen e) :
    r'.Servers.length ≤ 3 ∧ ∀ e ∈ r'.Servers, serverOk ipLen e := by
  cases f with
  | nil => cases h; exact ⟨hlen, hall⟩
  | cons f0 rest =>
    simp only [processLine] at h
    by_cases h1 : f0 == "nameserver"
    · rw [if_pos h1] at h
      cases h
      exact nameserverLine_invariant ipLen r (f0 :: rest) hlen hall
    · rw [if_neg h1] at h
      by_cases h2 : f0 == "domain"
      · rw [if_pos h2] at h; cases h; exact ⟨hlen, hall⟩
      · rw [if_neg h2] at h
        by_cases h3 : f0 == "search"
        · rw [if_pos h3] at h; cases h; exact ⟨hlen, hall⟩
        · rw [if_neg h3] at h
          by_cases h4 : f0 == "options"
          · rw [if_pos h4] at h
            obtain ⟨hs, _⟩ := optionsLine_ok_fields h
            rw [hs]
            exact ⟨hlen, hall⟩
          · rw [if_neg h4] at h; cases h; exact ⟨hlen, hall⟩

theorem fromFileGo_invariant {ipLen : String → Nat} {r r' : Resolver}
    {lines : List (List String)} (h : fromFileGo ipLen r lines = .ok r')
    (hlen : r.Servers.length ≤ 3)
    (hall : ∀ e ∈ r.Servers, serverOk ipLen e) :
    r'.Servers.length ≤ 3 ∧ ∀ e ∈ r'.Servers, serverOk ipLen e := by
  induction lines generalizing r with
  | nil => cases h; exact ⟨hlen, hall⟩
  | cons f rest ih =>
    unfold fromFileGo at h
    cases hp : processLine ipLen r f with
    | error p => rw [hp] at h; cases h
    | ok r1 =>
      rw [hp] at h
      obtain ⟨hl1, ha1⟩ := processLine_invariant hp hlen hall
      exact ih h hl1 ha1

/-- C10: after a successful FromFile run the servers list holds at most
three entries, each of which is a token that parsed as an IP address
(16-byte addresses stored wrapped in square brackets), and once three
servers are held any further `nameserver` line is silently ignored — it
still succeeds and leaves the resolver unchanged. -/
theorem fromFile_servers_invariant (ipLen : String → Nat)
    (lines : List (List String)) (r : Resolver)
    (h : FromFile ipLen lines = .ok r) :
    r.Servers.length ≤ 3 ∧
    (∀ e ∈ r.Servers, serverOk ipLen e) ∧
    (∀ (r' : Resolver) (rest : List String), 3 ≤ r'.Servers.length →
      processLine ipLen r' ("nameserver" :: rest) = .ok r') := by
  obtain ⟨hl, ha⟩ := fromFileGo_invariant h (by simp [initResolver])
    (by intro e he; simp [initResolver] at he)
  refine ⟨hl, ha, ?_⟩
  intro r' rest hge
  have hnotlt : ¬ r'.Servers.length < 3 := by omega
  simp [processLine, nameserverLine, hnotlt]

/-- Witness for C10 at a concrete configuration: four nameserver lines,
one not an IP, the server list capped at three. -/
theorem fromFile_servers_invariant_witness :
    (⟨["1.2.3.4", "[::1]", "5.6.7.8"], [], 1, 5, 2, false⟩ :
        Resolver).Servers.length ≤ 3 ∧
    (∀ e ∈ (⟨["1.2.3.4", "[::1]", "5.6.7.8"], [], 1, 5, 2, false⟩ :
        Resolver).Servers,
      serverOk (fun s => if s = "::1" then 16 else if s = "bad" then 0 else 4) e) ∧
    (∀ (r' : Resolver) (rest : List String), 3 ≤ r'.Servers.length →
      processLine (fun s => if s = "::1" then 16 else if s = "bad" then 0 else 4)
        r' ("nameserver" :: rest) = .ok r') :=
  fromFile_servers_invariant
    (fun s => if s = "::1" then 16 else if s = "bad" then 0 else 4)
    [["nameserver", "1.2.3.4"], ["nameserver", "bad"], ["nameserver", "::1"],
     ["nameserver", "5.6.7.8"], ["nameserver", "9.9.9.9"]]
    ⟨["1.2.3.4", "[::1]", "5.6.7.8"], [], 1, 5, 2, false⟩ (by rfl)

end DnsResolver

/-! ### The reflection guard and the funkensturm pipeline -/

/-- C2: a message whose header Response bit is set is dropped by the
server-role handlers before anything runs: the xfrprx `handle` leaves the
zone store untouched and writes nothing, whatever the notify/transfer
sub-handlers would do, and funkensturm's `doFunkensturm` errors out so
`reply` writes nothing to the connection. -/
theorem response_bit_produces_no_effects
    (hNotify hXfrOut : Dns.Msg → Xfrprx.ZoneT → Xfrprx.ZoneT × List (List Nat))
    (z : Xfrprx.ZoneT) (f : Funkensturm.Funkensturm)
    (pack : Dns.Msg → Option (List Nat)) (i : Dns.Msg)
    (h : i.MsgHdr.Response = true) :
    Xfrprx.handle hNotify hXfrOut z i = (z, []) ∧
    Funkensturm.doFunkensturm f pack i =
      .error "Response bit set, not replying" ∧
    Funkensturm.reply f pack i = none := by
  refine ⟨?_, ?_, ?_⟩
  · simp [Xfrprx.handle, h]
  · simp [Funkensturm.doFunkensturm, h]
  · simp [Funkensturm.reply, Funkensturm.doFunkensturm, h]

/-- Witness for C2 at a concrete response message and state. -/
theorem response_bit_produces_no_effects_witness :
    Xfrprx.handle (fun _ z => (z, []))
        (fun _ z => (z, [])) ⟨"", [], false⟩
        ⟨⟨7, true, 0, false, false, false, false, false, false, false, 0⟩,
          [], [], [], []⟩ = (⟨"", [], false⟩, []) ∧
    Funkensturm.doFunkensturm ⟨fun _ => true, [], []⟩ (fun _ => none)
        ⟨⟨7, true, 0, false, false, false, false, false, false, false, 0⟩,
          [], [], [], []⟩ = .error "Response bit set, not replying" ∧
    Funkensturm.reply ⟨fun _ => true, [], []⟩ (fun _ => none)
        ⟨⟨7, true, 0, false, false, false, false, false, false, false, 0⟩,
          [], [], [], []⟩ = none :=
  response_bit_produces_no_effects (fun _ z => (z, [])) (fun _ z => (z, []))
    ⟨"", [], false⟩ ⟨fun _ => true, [], []⟩ (fun _ => none)
    ⟨⟨7, true, 0, false, false, false, false, false, false, false, 0⟩,
      [], [], [], []⟩ rfl

/-- C7: when packing the final outgoing packet fails, `doFunkensturm`
reports the error and returns nil bytes, and `reply` writes nothing to the
connection. -/
theorem pack_failure_reports_error
    (f : Funkensturm.Funkensturm) (pack : Dns.Msg → Option (List Nat))
    (pkt p : Dns.Msg) (hresp : pkt.MsgHdr.Response = false)
    (hout : Funkensturm.runMatchesOut f.Matches
        (Funkensturm.runActions f.Actions
          (Funkensturm.runMatchesIn f.Matches (some pkt)).1
          (Funkensturm.runMatchesIn f.Matches (some pkt)).2) = some p)
    (hpack : pack p = none) :
    Funkensturm.doFunkensturm f pack pkt = .error "Packing packet failed" ∧
    Funkensturm.reply f pack pkt = none := by
  have hdo : Funkensturm.doFunkensturm f pack pkt =
      .error "Packing packet failed" := by
    simp [Funkensturm.doFunkensturm, Funkensturm.afterMatches, hresp, hout,
      hpack]
  exact ⟨hdo, by simp [Funkensturm.reply, hdo]⟩

/-- Witness for C7: one identity action, no matches, a packer that always
fails. -/
theorem pack_failure_reports_error_witness :
    Funkensturm.doFunkensturm ⟨fun _ => true, [], [⟨fun p _ => p⟩]⟩
        (fun _ => none)
        ⟨⟨9, false, 0, false, false, false, false, false, false, false, 0⟩,
          [], [], [], []⟩ = .error "Packing packet failed" ∧
    Funkensturm.reply ⟨fun _ => true, [], [⟨fun p _ => p⟩]⟩ (fun _ => none)
        ⟨⟨9, false, 0, false, false, false, false, false, false, false, 0⟩,
          [], [], [], []⟩ = none :=
  pack_failure_reports_error ⟨fun _ => true, [], [⟨fun p _ => p⟩]⟩
    (fun _ => none)
    ⟨⟨9, false, 0, false, false, false, false, false, false, false, 0⟩,
      [], [], [], []⟩
    ⟨⟨9, false, 0, false, false, false, false, false, false, false, 0⟩,
      [], [], [], []⟩
    rfl rfl rfl

theorem runMatchesInGo_eq_specChain (ms : List Funkensturm.Match)
    (p : Option Dns.Msg) (v : Bool)
    (hops : ∀ m ∈ ms, m.Op = Funkensturm.AND ∨ m.Op = Funkensturm.OR) :
    Funkensturm.runMatchesInGo ms (p, v) = Funkensturm.specChain ms p v := by
  induction ms generalizing p v with
  | nil => rfl
  | cons m rest ih =>
    have ih' := fun v' => ih (m.Func p Funkensturm.IN).1 v'
      (fun m' hm' => hops m' (List.mem_cons_of_mem _ hm'))
    rcases hops m (List.mem_cons_self _ _) with hop | hop
    · have e1 : (m.Op == Funkensturm.AND) = true := by rw [hop]; rfl
      simp only [Funkensturm.runMatchesInGo, Funkensturm.specChain, e1,
        if_true]
      exact ih' _
    · have e1 : (m.Op == Funkensturm.AND) = false := by rw [hop]; rfl
      have e2 : (m.Op == Funkensturm.OR) = true := by rw [hop]; rfl
      simp only [Funkensturm.runMatchesInGo, Funkensturm.specChain, e1, e2,
        Bool.false_eq_true, if_false, if_true]
      exact ih' _

/-- C8: when every configured stage's operator is `AND` or `OR`, the
packet/verdict pair `doFunkensturm` hands to the actions — the result of
the IN match loop — is exactly the specification's fold: start from
`true`, combine each stage's result with its declared operator
(conjunction for `AND`, disjunction for `OR`), feeding stage n's possibly
modified message to stage n+1; consequently `doFunkensturm` on a
non-response packet behaves as `afterMatches` applied to that fold. -/
theorem match_verdict_is_spec_fold
    (f : Funkensturm.Funkensturm) (pack : Dns.Msg → Option (List Nat))
    (pkt : Dns.Msg)
    (hops : ∀ m ∈ f.Matches,
      m.Op = Funkensturm.AND ∨ m.Op = Funkensturm.OR)
    (hresp : pkt.MsgHdr.Response = false) :
    Funkensturm.runMatchesIn f.Matches (some pkt) =
      Funkensturm.specChain f.Matches (some pkt) true ∧
    Funkensturm.doFunkensturm f pack pkt =
      Funkensturm.afterMatches f pack
        (Funkensturm.specChain f.Matches (some pkt) true) := by
  have hrm : Funkensturm.runMatchesIn f.Matches (some pkt) =
      Funkensturm.specChain f.Matches (some pkt) true :=
    runMatchesInGo_eq_specChain f.Matches (some pkt) true hops
  refine ⟨hrm, ?_⟩
  simp [Funkensturm.doFunkensturm, hresp, hrm]

/-- Witness for C8: one AND stage and one OR stage. -/
theorem match_verdict_is_spec_fold_witness :
    Funkensturm.runMatchesIn
        [⟨Funkensturm.AND, fun p _ => (p, true)⟩,
         ⟨Funkensturm.OR, fun p _ => (p, false)⟩]
        (some ⟨⟨3, false, 0, false, false, false, false, false, false, false,
          0⟩, [], [], [], []⟩) =
      Funkensturm.specChain
        [⟨Funkensturm.AND, fun p _ => (p, true)⟩,
         ⟨Funkensturm.OR, fun p _ => (p, false)⟩]
        (some ⟨⟨3, false, 0, false, false, false, false, false, false, false,
          0⟩, [], [], [], []⟩) true ∧
    Funkensturm.doFunkensturm
        ⟨fun _ => true,
         [⟨Funkensturm.AND, fun p _ => (p, true)⟩,
          ⟨Funkensturm.OR, fun p _ => (p, false)⟩], []⟩ (fun _ => some [])
        ⟨⟨3, false, 0, false, false, false, false, false, false, false, 0⟩,
          [], [], [], []⟩ =
      Funkensturm.afterMatches
        ⟨fun _ => true,
         [⟨Funkensturm.AND, fun p _ => (p, true)⟩,
          ⟨Funkensturm.OR, fun p _ => (p, false)⟩], []⟩ (fun _ => some [])
        (Funkensturm.specChain
          [⟨Funkensturm.AND, fun p _ => (p, true)⟩,
           ⟨Funkensturm.OR, fun p _ => (p, false)⟩]
          (some ⟨⟨3, false, 0, false, false, false, false, false, false,
            false, 0⟩, [], [], [], []⟩) true) :=
  match_verdict_is_spec_fold
    ⟨fun _ => true,
     [⟨Funkensturm.AND, fun p _ => (p, true)⟩,
      ⟨Funkensturm.OR, fun p _ => (p, false)⟩], []⟩ (fun _ => some [])
    ⟨⟨3, false, 0, false, false, false, false, false, false, false, 0⟩,
      [], [], [], []⟩
    (by intro m hm; simp only [List.mem_cons, List.mem_singleton] at hm
        rcases hm with rfl | rfl | h
        · exact Or.inl rfl
        · exact Or.inr rfl
        · cases h)
    rfl

/-- C1 fails on the code: after a transfer completes and the record set
passes verification (here `handleXfrOut` returns the zone store for
`miek.nl.` with `correct = true`), the xfrprx `handle` body runs its
"For now assume ok" tail and unconditionally stores `correct = false` —
the flag is never set (or left) true by the handler. -/
theorem xfrprx_handle_clears_correct_flag :
    (Xfrprx.handle (fun _ z => (z, []))
        (fun _ _ => (⟨"miek.nl.", [], true⟩, []))
        ⟨"", [], false⟩
        ⟨⟨1, false, 0, false, false, false, false, false, false, false, 0⟩,
          [], [], [], []⟩).1.correct = false ∧
    (Xfrprx.handle (fun _ z => (z, []))
        (fun _ _ => (⟨"miek.nl.", [], true⟩, []))
        ⟨"", [], false⟩
        ⟨⟨1, false, 0, false, false, false, false, false, false, false, 0⟩,
          [], [], [], []⟩).1.name = "miek.nl." := by
  constructor <;> rfl

/-! ### The transfer state machine -/

theorem step_live_or_committed (e : Transfer.Engine) (ev : Transfer.Event) :
    (Transfer.step e ev).live = e.live ∨
    (Transfer.step e ev).state = .Committed := by
  rcases e with ⟨live, ls, scr, ps, st, err⟩
  cases st <;> cases ev <;>
    first
      | exact Or.inl rfl
      | (dsimp only [Transfer.step]
         split_ifs <;> first | exact Or.inl rfl | exact Or.inr rfl)

theorem step_terminal_absorbs (e : Transfer.Engine) (ev : Transfer.Event)
    (h : e.state = .Committed ∨ e.state = .Aborted) :
    Transfer.step e ev = e := by
  rcases e with ⟨live, ls, scr, ps, st, err⟩
  rcases h with h | h <;> (simp only at h; subst h; cases ev <;> rfl)

theorem run_committed_absorbs (e : Transfer.Engine)
    (evs : List Transfer.Event) (h : e.state = .Committed) :
    Transfer.run e evs = e := by
  induction evs with
  | nil => rfl
  | cons ev rest ih =>
    show Transfer.run (Transfer.step e ev) rest = e
    rw [step_terminal_absorbs e ev (Or.inl h)]
    exact ih

/-- C3: if a transfer attempt ends `Aborted` — for any failure event
sequence (connection errors, malformed chunks, capacity overflow, failed
verification) — the live Zone Store after the run equals the Zone Store
before it: no partial update is ever applied. -/
theorem transfer_abort_preserves_zone (e : Transfer.Engine)
    (evs : List Transfer.Event)
    (h : (Transfer.run e evs).state = .Aborted) :
    (Transfer.run e evs).live = e.live := by
  induction evs generalizing e with
  | nil => rfl
  | cons ev rest ih =>
    have hrun : Transfer.run e (ev :: rest) =
        Transfer.run (Transfer.step e ev) rest := rfl
    rw [hrun] at h ⊢
    rcases step_live_or_committed e ev with hl | hc
    · rw [ih _ h, hl]
    · rw [run_committed_absorbs _ rest hc] at h
      rw [hc] at h
      cases h

/-- Witness for C3: a transfer that aborts on connection failure right
after the NOTIFY leaves the live zone exactly as it was. -/
theorem transfer_abort_preserves_zone_witness :
    (Transfer.run ⟨⟨"miek.nl.", [], false⟩, 3, [], 0, .Idle, none⟩
        [.notify 5, .connFail]).live = (⟨"miek.nl.", [], false⟩ :
          Xfrprx.ZoneT) :=
  transfer_abort_preserves_zone
    ⟨⟨"miek.nl.", [], false⟩, 3, [], 0, .Idle, none⟩
    [.notify 5, .connFail] (by rfl)

theorem step_capacity (e : Transfer.Engine) (ev : Transfer.Event)
    (h1 : e.live.rrs.length ≤ Xfrprx.zoneCapacity)
    (h2 : e.scratch.length ≤ Xfrprx.zoneCapacity) :
    (Transfer.step e ev).live.rrs.length ≤ Xfrprx.zoneCapacity ∧
    (Transfer.step e ev).scratch.length ≤ Xfrprx.zoneCapacity := by
  rcases e with ⟨live, ls, scr, ps, st, err⟩
  cases st <;> cases ev <;>
    first
      | exact ⟨h1, h2⟩
      | (dsimp only [Transfer.step] at *
         split_ifs <;> constructor <;> simp_all <;> omega)

/-- C5: the zone record buffer is a fixed 10000-element array; starting
from any engine state within capacity, no event sequence ever pushes the
live store's record count or the scratch buffer past the capacity, and a
record arriving when the scratch buffer is already full aborts the
transfer with a reported `bufferOverflow` instead of overrunning. -/
theorem transfer_respects_capacity (e : Transfer.Engine)
    (evs : List Transfer.Event)
    (h1 : e.live.rrs.length ≤ Xfrprx.zoneCapacity)
    (h2 : e.scratch.length ≤ Xfrprx.zoneCapacity) :
    ((Transfer.run e evs).live.rrs.length ≤ Xfrprx.zoneCapacity ∧
     (Transfer.run e evs).scratch.length ≤ Xfrprx.zoneCapacity) ∧
    ∀ (e' : Transfer.Engine) (r : Dns.RR), e'.state = .Streaming →
      Xfrprx.zoneCapacity ≤ e'.scratch.length →
      Transfer.step e' (.record r) =
        { e' with state := .Aborted, err := some .bufferOverflow } := by
  constructor
  · induction evs generalizing e with
    | nil => exact ⟨h1, h2⟩
    | cons ev rest ih =>
      exact ih (Transfer.step e ev) (step_capacity e ev h1 h2).1
        (step_capacity e ev h1 h2).2
  · intro e' r hst hlen
    rcases e' with ⟨live, ls, scr, ps, st, err⟩
    simp only at hst
    subst hst
    dsimp only [Transfer.step]
    rw [if_pos]
    simp only at hlen
    omega

/-- Witness for C5 at a concrete engine and a single record event. -/
theorem transfer_respects_capacity_witness :
    ((Transfer.run ⟨⟨"miek.nl.", [], false⟩, 3, [], 0, .Streaming, none⟩
        [.record ⟨[[97]], 1, 3600, .a [1, 2, 3, 4]⟩]).live.rrs.length ≤
          Xfrprx.zoneCapacity ∧
     (Transfer.run ⟨⟨"miek.nl.", [], false⟩, 3, [], 0, .Streaming, none⟩
        [.record ⟨[[97]], 1, 3600, .a [1, 2, 3, 4]⟩]).scratch.length ≤
          Xfrprx.zoneCapacity) ∧
    ∀ (e' : Transfer.Engine) (r : Dns.RR), e'.state = .Streaming →
      Xfrprx.zoneCapacity ≤ e'.scratch.length →
      Transfer.step e' (.record r) =
        { e' with state := .Aborted, err := some .bufferOverflow } :=
  transfer_respects_capacity
    ⟨⟨"miek.nl.", [], false⟩, 3, [], 0, .Streaming, none⟩
    [.record ⟨[[97]], 1, 3600, .a [1, 2, 3, 4]⟩]
    (by simp [Xfrprx.zoneCapacity]) (by simp [Xfrprx.zoneCapacity])

namespace Dns

/-! ### Codec lemmas: names -/

theorem getP_right {B x : List Nat} {i : Nat} :
    (B ++ x)[B.length + i]? = x[i]? := by
  rw [List.getElem?_append_right (by omega)]
  congr 1
  omega

theorem spelledAt_pos_lt {B : List Nat} {pos : Nat} {nm : Name} {e g : Nat}
    (sp : SpelledAt B pos nm e g) : pos < B.length := by
  cases sp with
  | term hb => exact (List.getElem?_eq_some.mp hb).1
  | label hb h0 h64 hs sub => exact (List.getElem?_eq_some.mp hb).1
  | ptr hb h192 h256 hb2 hoff hlt sub =>
    exact (List.getElem?_eq_some.mp hb).1

theorem spelledAt_append {B ext : List Nat} {pos : Nat} {nm : Name}
    {e g : Nat} (sp : SpelledAt B pos nm e g) :
    SpelledAt (B ++ ext) pos nm e g := by
  induction sp with
  | term hb =>
    exact .term
      (by rw [List.getElem?_append_left (List.getElem?_eq_some.mp hb).1]
          exact hb)
  | label hb h0 h64 hs sub ih =>
    have hpos : _ < B.length := (List.getElem?_eq_some.mp hb).1
    rename_i pos' l rest' e' g'
    refine .label ?_ h0 h64 ?_ ih
    · rw [List.getElem?_append_left hpos]; exact hb
    · have hlen : l.length ≤ (B.drop (pos' + 1)).length := by
        have := congrArg List.length hs
        simp only [List.length_take] at this
        omega
      rw [List.drop_append_of_le_length (by omega),
        List.take_append_of_le_length hlen, hs]
  | ptr hb h192 h256 hb2 hoff hlt sub ih =>
    refine .ptr ?_ h192 h256 ?_ hoff hlt ih
    · rw [List.getElem?_append_left (List.getElem?_eq_some.mp hb).1]
      exact hb
    · rw [List.getElem?_append_left (List.getElem?_eq_some.mp hb2).1]
      exact hb2

theorem spelled_decodeLabels {B : List Nat} {pos : Nat} {nm : Name}
    {e g : Nat} (sp : SpelledAt B pos nm e g) :
    ∀ hop step : Nat, g ≤ hop → B.length - pos < step →
    decodeLabels B (decodeNameHops B hop) step pos = some (nm, e) := by
  induction sp with
  | term hb =>
    intro hop step hg hs
    have hpos : _ < B.length := (List.getElem?_eq_some.mp hb).1
    cases step with
    | zero => omega
    | succ s => simp [decodeLabels, hb]
  | label hb h0 h64 hs sub ih =>
    intro hop step hg hstep
    rename_i pos' l rest' e' g'
    cases step with
    | zero => omega
    | succ s =>
      have hpos : pos' < B.length := (List.getElem?_eq_some.mp hb).1
      have hpos2 : pos' + 1 + l.length < B.length := spelledAt_pos_lt sub
      have hrec := ih hop s hg (by omega)
      simp only [decodeLabels, hb]
      rw [if_neg (by omega), if_pos h64, hs, if_pos rfl, hrec]
  | ptr hb h192 h256 hb2 hoff hlt sub ih =>
    intro hop step hg hstep
    rename_i pos' c c2 off nm' e' g'
    cases step with
    | zero => omega
    | succ s =>
      cases hop with
      | zero => omega
      | succ hop' =>
        have hrec := ih hop' (B.length + 1) (by omega)
          (by have := spelledAt_pos_lt sub; omega)
        simp only [decodeLabels, hb, hb2]
        rw [if_neg (by omega), if_neg (by omega), if_pos h192]
        rw [hoff, if_pos hlt]
        simp only [decodeNameHops]
        rw [hrec]
  -- done

theorem spelled_decodeName {B : List Nat} {pos : Nat} {nm : Name} {e g : Nat}
    (sp : SpelledAt B pos nm e g) (hg : g ≤ B.length) :
    decodeName B pos = some (nm, e) := by
  show decodeNameHops B (B.length + 1) pos = some (nm, e)
  simp only [decodeNameHops]
  exact spelled_decodeLabels sp B.length (B.length + 1) hg (by omega)

end Dns

namespace Dns

theorem goodEntry_append {B w : List Nat} {p : Name × Nat}
    (h : GoodEntry B p) : GoodEntry (B ++ w) p := by
  obtain ⟨h1, h2, e, g, sp, hg⟩ := h
  exact ⟨h1, by simp only [List.length_append]; omega, e, g,
    spelledAt_append sp, hg⟩

theorem lookupName_mem {k : Name} {v : Nat} :
    ∀ {t : List (Name × Nat)}, List.lookup k t = some v → (k, v) ∈ t := by
  intro t h
  induction t with
  | nil => cases h
  | cons p rest ih =>
    rcases p with ⟨k', v'⟩
    rw [List.lookup] at h
    by_cases hk : k == k'
    · rw [hk] at h
      simp only at h
      cases h
      have : k = k' := eq_of_beq hk
      subst this
      exact List.mem_cons_self _ _
    · rw [Bool.not_eq_true] at hk
      rw [hk] at h
      simp only at h
      exact List.mem_cons_of_mem _ (ih h)

theorem encodeName_sound :
    ∀ (n : Name) (buf : List Nat) (tNew tOld : List (Name × Nat)) (K : Nat),
    ValidName n = true → K ≤ buf.length →
    (∀ p ∈ tOld, GoodEntry buf p ∧ p.2 < K) →
    (∀ p ∈ tNew, n.length < p.1.length) →
    ∃ ext tAdd g,
      encodeName n buf (tNew ++ tOld) = (buf ++ ext, tAdd ++ (tNew ++ tOld)) ∧
      0 < ext.length ∧
      SpelledAt (buf ++ ext) buf.length n (buf.length + ext.length) g ∧
      g ≤ K + 1 ∧
      (∀ p ∈ tAdd, p.1.length ≤ n.length ∧ GoodEntry (buf ++ ext) p) := by
  intro n
  induction n with
  | nil =>
    intro buf tNew tOld K hval hK hOld hNew
    refine ⟨[0], [], 0, rfl, by simp, ?_, by omega, by simp⟩
    have hb : (buf ++ [0])[buf.length]? = some 0 := by
      have := getP_right (B := buf) (x := [0]) (i := 0)
      simpa using this
    exact .term hb
  | cons l rest ih =>
    intro buf tNew tOld K hval hK hOld hNew
    have hval' : ValidName rest = true ∧ 0 < l.length ∧ l.length < 64 := by
      simp only [ValidName, List.all_cons, Bool.and_eq_true,
        decide_eq_true_eq] at hval
      exact ⟨by simp only [ValidName]; exact hval.2,
        hval.1.1.1, hval.1.1.2⟩
    cases hlook : List.lookup (l :: rest) (tNew ++ tOld) with
    | some off =>
      have hmem := lookupName_mem hlook
      have hmem' : ((l :: rest : Name), off) ∈ tOld := by
        rcases List.mem_append.mp hmem with hm | hm
        · have := hNew _ hm
          simp at this
        · exact hm
      obtain ⟨⟨hoff16, hoffB, e'', g'', sp'', hg''⟩, hoffK⟩ := hOld _ hmem'
      refine ⟨[192 + off / 256, off % 256], [], g'' + 1, ?_, by simp, ?_,
        by omega, by simp⟩
      · simp [encodeName, hlook]
      · have hb0 : (buf ++ [192 + off / 256, off % 256])[buf.length]? =
            some (192 + off / 256) := by
          have := getP_right (B := buf) (x := [192 + off / 256, off % 256])
            (i := 0)
          simpa using this
        have hb1 : (buf ++ [192 + off / 256, off % 256])[buf.length + 1]? =
            some (off % 256) := by
          have := getP_right (B := buf) (x := [192 + off / 256, off % 256])
            (i := 1)
          simpa using this
        exact SpelledAt.ptr hb0 (by omega) (by omega) hb1 (by omega) hoffB
          (spelledAt_append sp'')
    | none =>
      have hbufshape : ∀ ext' : List Nat,
          (buf ++ l.length :: l) ++ ext' = buf ++ (l.length :: l ++ ext') :=
        fun ext' => by simp
      by_cases h16 : buf.length < 16384
      · obtain ⟨ext', tAdd', g', henc, hext', sp', hg', hAdd'⟩ :=
          ih (buf ++ l.length :: l) (((l :: rest), buf.length) :: tNew) tOld
            K hval'.1 (by simp only [List.length_append]; omega)
            (fun p hp => ⟨goodEntry_append (hOld p hp).1, (hOld p hp).2⟩)
            (by intro p hp
                rcases List.mem_cons.mp hp with rfl | hp
                · simp
                · have := hNew p hp
                  simp only [List.length_cons] at this ⊢
                  omega)
        have hlen2 : (buf ++ l.length :: l).length = buf.length + 1 + l.length := by
          simp only [List.length_append, List.length_cons]
          omega
        have hmain : SpelledAt (buf ++ (l.length :: l ++ ext')) buf.length
            (l :: rest) (buf.length + (l.length :: l ++ ext').length) g' := by
          have hb0 : (buf ++ (l.length :: l ++ ext'))[buf.length]? =
              some l.length := by
            have := getP_right (B := buf) (x := l.length :: l ++ ext')
              (i := 0)
            simpa using this
          have hslice : ((buf ++ (l.length :: l ++ ext')).drop
              (buf.length + 1)).take l.length = l := by
            have hd : (buf ++ (l.length :: l ++ ext')).drop
                (buf.length + 1) = l ++ ext' := by
              have := @List.drop_append _ buf (l.length :: l ++ ext') 1
              simpa using this
            rw [hd, List.take_left]
          have hsub : SpelledAt (buf ++ (l.length :: l ++ ext'))
              (buf.length + 1 + l.length) rest
              (buf.length + (l.length :: l ++ ext').length) g' := by
            have := sp'
            rw [hbufshape ext', hlen2] at this
            have hend : (buf ++ l.length :: l).length + ext'.length =
                buf.length + (l.length :: l ++ ext').length := by
              simp only [List.length_append, List.length_cons]
              omega
            rw [← hend]
            rw [hlen2] at hend ⊢
            exact this
          exact SpelledAt.label hb0 hval'.2.1 hval'.2.2 hslice hsub
        refine ⟨l.length :: l ++ ext',
          tAdd' ++ [((l :: rest : Name), buf.length)], g', ?_, by simp, hmain,
          hg', ?_⟩
        · simp only [encodeName, hlook]
          rw [if_pos h16]
          have : ((l :: rest, buf.length) :: tNew) ++ tOld =
              (l :: rest, buf.length) :: (tNew ++ tOld) := rfl
          rw [← this, henc, hbufshape ext']
          simp [List.append_assoc]
        · intro p hp
          rcases List.mem_append.mp hp with hp | hp
          · obtain ⟨hl1, hl2⟩ := hAdd' p hp
            rw [hbufshape ext'] at hl2
            exact ⟨by simp only [List.length_cons]; omega, hl2⟩
          · simp only [List.mem_singleton] at hp
            subst hp
            refine ⟨le_refl _, h16, ?_, ?_⟩
            · simp only [List.length_append]
              have : 0 < (l.length :: l ++ ext').length := by simp
              omega
            · exact ⟨buf.length + (l.length :: l ++ ext').length, g', hmain,
                by omega⟩
      · obtain ⟨ext', tAdd', g', henc, hext', sp', hg', hAdd'⟩ :=
          ih (buf ++ l.length :: l) tNew tOld
            K hval'.1 (by simp only [List.length_append]; omega)
            (fun p hp => ⟨goodEntry_append (hOld p hp).1, (hOld p hp).2⟩)
            (by intro p hp
                have := hNew p hp
                simp only [List.length_cons] at this ⊢
                omega)
        have hlen2 : (buf ++ l.length :: l).length = buf.length + 1 + l.length := by
          simp only [List.length_append, List.length_cons]
          omega
        have hmain : SpelledAt (buf ++ (l.length :: l ++ ext')) buf.length
            (l :: rest) (buf.length + (l.length :: l ++ ext').length) g' := by
          have hb0 : (buf ++ (l.length :: l ++ ext'))[buf.length]? =
              some l.length := by
            have := getP_right (B := buf) (x := l.length :: l ++ ext')
              (i := 0)
            simpa using this
          have hslice : ((buf ++ (l.length :: l ++ ext')).drop
              (buf.length + 1)).take l.length = l := by
            have hd : (buf ++ (l.length :: l ++ ext')).drop
                (buf.length + 1) = l ++ ext' := by
              have := @List.drop_append _ buf (l.length :: l ++ ext') 1
              simpa using this
            rw [hd, List.take_left]
          have hsub : SpelledAt (buf ++ (l.length :: l ++ ext'))
              (buf.length + 1 + l.length) rest
              (buf.length + (l.length :: l ++ ext').length) g' := by
            have := sp'
            rw [hbufshape ext', hlen2] at this
            have hend : (buf ++ l.length :: l).length + ext'.length =
                buf.length + (l.length :: l ++ ext').length := by
              simp only [List.length_append, List.length_cons]
              omega
            rw [← hend]
            rw [hlen2] at hend ⊢
            exact this
          exact SpelledAt.label hb0 hval'.2.1 hval'.2.2 hslice hsub
        refine ⟨l.length :: l ++ ext', tAdd', g', ?_, by simp, hmain, hg',
          ?_⟩
        · simp only [encodeName, hlook]
          rw [if_neg h16, henc, hbufshape ext']
        · intro p hp
          obtain ⟨hl1, hl2⟩ := hAdd' p hp
          rw [hbufshape ext'] at hl2
          exact ⟨by simp only [List.length_cons]; omega, hl2⟩

end Dns

namespace Dns

/-! ### Codec lemmas: resource data -/

theorem readU16_encode {n : Nat} (r : List Nat) (h : n < 2 ^ 16) :
    readU16 (encodeU16 n ++ r) = some (n, r) := by
  simp only [encodeU16, List.cons_append, List.nil_append, readU16]
  have : n / 256 % 256 * 256 + n % 256 = n := by omega
  rw [this]

theorem readU32_encode {n : Nat} (r : List Nat) (h : n < 2 ^ 32) :
    readU32 (encodeU32 n ++ r) = some (n, r) := by
  simp only [encodeU32, List.cons_append, List.nil_append, readU32]
  have : ((n / 2 ^ 24 % 256 * 256 + n / 2 ^ 16 % 256) * 256 +
      n / 256 % 256) * 256 + n % 256 = n := by omega
  rw [this]

theorem readU48_encode {n : Nat} (r : List Nat) (h : n < 2 ^ 48) :
    readU48 (encodeU48 n ++ r) = some (n, r) := by
  simp only [encodeU48, List.cons_append, List.nil_append, readU48]
  have : ((((n / 2 ^ 40 % 256 * 256 + n / 2 ^ 32 % 256) * 256 +
      n / 2 ^ 24 % 256) * 256 + n / 2 ^ 16 % 256) * 256 +
      n / 256 % 256) * 256 + n % 256 = n := by omega
  rw [this]

theorem readN_append (xs r : List Nat) : readN xs.length (xs ++ r) = some (xs, r) := by
  unfold readN
  rw [if_neg (by simp), List.take_left, List.drop_left]

theorem encodeNameU_length (n : Name) : n.length < (encodeNameU n).length := by
  induction n with
  | nil => simp [encodeNameU]
  | cons l rest ih =>
    simp only [encodeNameU, List.map_cons, List.flatten_cons,
      List.cons_append, List.length_cons, List.append_assoc] at ih ⊢
    simp only [List.length_append, List.length_cons] at ih ⊢
    omega

theorem readNameUGo_encode (n : Name) :
    ∀ (fuel : Nat) (r : List Nat), ValidName n = true → n.length < fuel →
    readNameUGo fuel (encodeNameU n ++ r) = some (n, r) := by
  induction n with
  | nil =>
    intro fuel r _ hf
    cases fuel with
    | zero => omega
    | succ f => simp [encodeNameU, readNameUGo]
  | cons l rest ih =>
    intro fuel r hval hf
    have hval' : ValidName rest = true ∧ 0 < l.length ∧ l.length < 64 := by
      simp only [ValidName, List.all_cons, Bool.and_eq_true,
        decide_eq_true_eq] at hval
      exact ⟨by simp only [ValidName]; exact hval.2,
        hval.1.1.1, hval.1.1.2⟩
    cases fuel with
    | zero => omega
    | succ f =>
      have hshape : encodeNameU (l :: rest) ++ r =
          l.length :: (l ++ (encodeNameU rest ++ r)) := by
        simp [encodeNameU, List.append_assoc]
      rw [hshape]
      simp only [readNameUGo]
      rw [if_neg (by omega), if_pos hval'.2.2,
        if_neg (by simp only [List.length_append]; omega),
        List.take_left, List.drop_left,
        ih f r hval'.1 (by simp only [List.length_cons] at hf; omega)]

theorem readNameU_encode {n : Name} (r : List Nat) (h : ValidName n = true) :
    readNameU (encodeNameU n ++ r) = some (n, r) := by
  unfold readNameU
  apply readNameUGo_encode n _ r h
  have := encodeNameU_length n
  simp only [List.length_append]
  omega

theorem decodeRData_encode (d : RData) (h : ValidRData d = true) :
    decodeRData d.code (encodeRData d) = some d := by
  cases d with
  | a ip =>
    simp only [ValidRData, Bool.and_eq_true, beq_iff_eq] at h
    simp [RData.code, encodeRData, decodeRData, h.1]
  | aaaa ip =>
    simp only [ValidRData, Bool.and_eq_true, beq_iff_eq] at h
    simp [RData.code, encodeRData, decodeRData, h.1]
  | txt s =>
    simp [RData.code, encodeRData, decodeRData]
  | soa mn rn serial refresh retry expire minttl =>
    simp only [ValidRData, Bool.and_eq_true, decide_eq_true_eq] at h
    obtain ⟨⟨⟨⟨⟨⟨hmn, hrn⟩, h1⟩, h2⟩, h3⟩, h4⟩, h5⟩ := h
    simp only [RData.code, encodeRData, decodeRData, List.append_assoc]
    rw [readNameU_encode _ hmn]
    simp only [Option.bind_eq_bind, Option.some_bind]
    rw [readNameU_encode _ hrn]
    simp only [Option.some_bind]
    rw [readU32_encode _ h1]
    simp only [Option.some_bind]
    rw [readU32_encode _ h2]
    simp only [Option.some_bind]
    rw [readU32_encode _ h3]
    simp only [Option.some_bind]
    rw [readU32_encode _ h4]
    simp only [Option.some_bind]
    rw [show encodeU32 minttl = encodeU32 minttl ++ [] by simp,
      readU32_encode _ h5]
    simp
  | dnskey flags protocol alg key =>
    simp only [ValidRData, Bool.and_eq_true, decide_eq_true_eq] at h
    obtain ⟨⟨⟨h1, _⟩, _⟩, _⟩ := h
    simp only [RData.code, encodeRData, decodeRData]
    rw [show encodeU16 flags ++ protocol :: alg :: key =
      encodeU16 flags ++ (protocol :: alg :: key) from rfl,
      readU16_encode _ h1]
    simp [readU8]
  | rrsig tc alg labels origTtl expiration inception keyTag signer sig =>
    simp only [ValidRData, Bool.and_eq_true, decide_eq_true_eq] at h
    obtain ⟨⟨⟨⟨⟨⟨⟨⟨h1, _⟩, _⟩, h2⟩, h3⟩, h4⟩, h5⟩, hsg⟩, _⟩ := h
    simp only [RData.code, encodeRData, decodeRData]
    rw [readU16_encode _ h1]
    simp only [Option.bind_eq_bind, Option.some_bind, readU8]
    simp only [List.append_assoc]
    rw [readU32_encode _ h2]
    simp only [Option.some_bind]
    rw [readU32_encode _ h3]
    simp only [Option.some_bind]
    rw [readU32_encode _ h4]
    simp only [Option.some_bind]
    rw [readU16_encode _ h5]
    simp only [Option.some_bind]
    rw [readNameU_encode _ hsg]
    simp
  | nsec3 ha fl it salt next bitmap =>
    simp only [ValidRData, Bool.and_eq_true, decide_eq_true_eq] at h
    obtain ⟨⟨⟨⟨⟨⟨⟨_, _⟩, h1⟩, _⟩, _⟩, _⟩, _⟩, _⟩ := h
    simp only [RData.code, encodeRData, decodeRData]
    simp only [readU8, Option.bind_eq_bind, Option.some_bind]
    rw [readU16_encode _ h1]
    simp only [Option.some_bind, readU8]
    rw [readN_append]
    simp only [Option.some_bind, readU8]
    rw [readN_append]
    simp
  | tsig alg t fudge mac origId errC other =>
    simp only [ValidRData, Bool.and_eq_true, decide_eq_true_eq] at h
    obtain ⟨⟨⟨⟨⟨⟨⟨⟨halg, h1⟩, h2⟩, h3⟩, _⟩, h4⟩, h5⟩, h6⟩, _⟩ := h
    simp only [RData.code, encodeRData, decodeRData, List.append_assoc]
    rw [readNameU_encode _ halg]
    simp only [Option.bind_eq_bind, Option.some_bind]
    rw [readU48_encode _ h1]
    simp only [Option.some_bind]
    rw [readU16_encode _ h2]
    simp only [Option.some_bind]
    rw [readU16_encode _ h3]
    simp only [Option.some_bind]
    rw [readN_append]
    simp only [Option.some_bind]
    rw [readU16_encode _ h4]
    simp only [Option.some_bind]
    rw [readU16_encode _ h5]
    simp only [Option.some_bind]
    rw [show encodeU16 other.length ++ other =
      encodeU16 other.length ++ (other ++ []) by simp,
      readU16_encode _ h6]
    simp only [Option.some_bind]
    rw [readN_append]
    simp

end Dns

namespace Dns

/-! ### Codec lemmas: header bytes and absolute-offset fields -/

theorem boolBit_beq (b : Bool) : (boolBit b == 1) = b := by
  cases b <;> rfl

theorem hdrByte2_bits (resp aa tc rd : Bool) (op : Nat) (hop : op < 16) :
    (boolBit resp * 128 + op * 8 + boolBit aa * 4 + boolBit tc * 2 +
      boolBit rd) / 128 % 2 = boolBit resp ∧
    (boolBit resp * 128 + op * 8 + boolBit aa * 4 + boolBit tc * 2 +
      boolBit rd) / 8 % 16 = op ∧
    (boolBit resp * 128 + op * 8 + boolBit aa * 4 + boolBit tc * 2 +
      boolBit rd) / 4 % 2 = boolBit aa ∧
    (boolBit resp * 128 + op * 8 + boolBit aa * 4 + boolBit tc * 2 +
      boolBit rd) / 2 % 2 = boolBit tc ∧
    (boolBit resp * 128 + op * 8 + boolBit aa * 4 + boolBit tc * 2 +
      boolBit rd) % 2 = boolBit rd := by
  cases resp <;> cases aa <;> cases tc <;> cases rd <;>
    simp [boolBit] <;> omega

theorem hdrByte3_bits (ra z ad cd : Bool) (rc : Nat) (hrc : rc < 16) :
    (boolBit ra * 128 + boolBit z * 64 + boolBit ad * 32 + boolBit cd * 16 +
      rc) / 128 % 2 = boolBit ra ∧
    (boolBit ra * 128 + boolBit z * 64 + boolBit ad * 32 + boolBit cd * 16 +
      rc) / 64 % 2 = boolBit z ∧
    (boolBit ra * 128 + boolBit z * 64 + boolBit ad * 32 + boolBit cd * 16 +
      rc) / 32 % 2 = boolBit ad ∧
    (boolBit ra * 128 + boolBit z * 64 + boolBit ad * 32 + boolBit cd * 16 +
      rc) / 16 % 2 = boolBit cd ∧
    (boolBit ra * 128 + boolBit z * 64 + boolBit ad * 32 + boolBit cd * 16 +
      rc) % 16 = rc := by
  cases ra <;> cases z <;> cases ad <;> cases cd <;>
    simp [boolBit] <;> omega

theorem hdrByte2_lt (h : MsgHdr) (hop : h.Opcode < 16) : hdrByte2 h < 256 := by
  rcases h with ⟨id, resp, op, aa, tc, rd, ra, z, ad, cd, rc⟩
  simp only [hdrByte2] at *
  cases resp <;> cases aa <;> cases tc <;> cases rd <;>
    simp [boolBit] <;> omega

theorem hdrByte3_lt (h : MsgHdr) (hrc : h.Rcode < 16) : hdrByte3 h < 256 := by
  rcases h with ⟨id, resp, op, aa, tc, rd, ra, z, ad, cd, rc⟩
  simp only [hdrByte3] at *
  cases ra <;> cases z <;> cases ad <;> cases cd <;>
    simp [boolBit] <;> omega

theorem decodeHdr_encode (h : MsgHdr) (hop : h.Opcode < 16)
    (hrc : h.Rcode < 16) :
    decodeHdr h.Id (hdrByte2 h) (hdrByte3 h) = h := by
  rcases h with ⟨id, resp, op, aa, tc, rd, ra, z, ad, cd, rc⟩
  simp only at hop hrc
  obtain ⟨e1, e2, e3, e4, e5⟩ := hdrByte2_bits resp aa tc rd op hop
  obtain ⟨f1, f2, f3, f4, f5⟩ := hdrByte3_bits ra z ad cd rc hrc
  simp [decodeHdr, hdrByte2, hdrByte3, MsgHdr.mk.injEq, e1, e2, e3, e4, e5,
    f1, f2, f3, f4, f5, boolBit_beq]

theorem getU8_split {B p q : List Nat} {v : Nat}
    (hB : B = p ++ v :: q) : getU8 B p.length = some v := by
  subst hB
  have := getP_right (B := p) (x := v :: q) (i := 0)
  simpa [getU8] using this

theorem getU16_split {B p q : List Nat} {v : Nat}
    (hB : B = p ++ (encodeU16 v ++ q)) (hv : v < 2 ^ 16) :
    getU16 B p.length = some v := by
  subst hB
  simp only [encodeU16, List.cons_append, List.nil_append]
  have h0 := getP_right (B := p) (x := v / 256 % 256 :: v % 256 :: q)
    (i := 0)
  have h1 := getP_right (B := p) (x := v / 256 % 256 :: v % 256 :: q)
    (i := 1)
  simp only [List.getElem?_cons_zero, List.getElem?_cons_succ,
    Nat.add_zero] at h0 h1
  simp only [getU16, h0, h1]
  have : v / 256 % 256 * 256 + v % 256 = v := by omega
  rw [this]

theorem getU32_split {B p q : List Nat} {v : Nat}
    (hB : B = p ++ (encodeU32 v ++ q)) (hv : v < 2 ^ 32) :
    getU32 B p.length = some v := by
  subst hB
  simp only [encodeU32, List.cons_append, List.nil_append]
  have h0 := getP_right (B := p)
    (x := v / 2 ^ 24 % 256 :: v / 2 ^ 16 % 256 :: v / 256 % 256 ::
      v % 256 :: q) (i := 0)
  have h1 := getP_right (B := p)
    (x := v / 2 ^ 24 % 256 :: v / 2 ^ 16 % 256 :: v / 256 % 256 ::
      v % 256 :: q) (i := 1)
  have h2 := getP_right (B := p)
    (x := v / 2 ^ 24 % 256 :: v / 2 ^ 16 % 256 :: v / 256 % 256 ::
      v % 256 :: q) (i := 2)
  have h3 := getP_right (B := p)
    (x := v / 2 ^ 24 % 256 :: v / 2 ^ 16 % 256 :: v / 256 % 256 ::
      v % 256 :: q) (i := 3)
  simp only [List.getElem?_cons_zero, List.getElem?_cons_succ,
    Nat.add_zero] at h0 h1 h2 h3
  simp only [getU32, h0, h1, h2, h3]
  have : ((v / 2 ^ 24 % 256 * 256 + v / 2 ^ 16 % 256) * 256 +
      v / 256 % 256) * 256 + v % 256 = v := by omega
  rw [this]

theorem drop_take_split {B p m q : List Nat}
    (hB : B = p ++ (m ++ q)) :
    (B.drop p.length).take m.length = m := by
  subst hB
  rw [List.drop_left, List.take_left]

end Dns

namespace Dns

/-! ### Codec lemmas: questions and records -/

theorem encodeName_usable (n : Name) (buf : List Nat)
    (t : List (Name × Nat)) (hval : ValidName n = true)
    (ht : ∀ p ∈ t, GoodEntry buf p) :
    ∃ ext t', encodeName n buf t = (buf ++ ext, t') ∧ 0 < ext.length ∧
      (∀ p ∈ t', GoodEntry (buf ++ ext) p) ∧
      ∃ g, SpelledAt (buf ++ ext) buf.length n (buf.length + ext.length) g ∧
        g ≤ buf.length + 1 := by
  obtain ⟨ext, tAdd, g, henc, hext, sp, hg, hAdd⟩ :=
    encodeName_sound n buf [] t buf.length hval (le_refl _)
      (fun p hp => ⟨ht p hp, (ht p hp).2.1⟩) (by simp)
  simp only [List.nil_append] at henc
  refine ⟨ext, tAdd ++ t, henc, hext, ?_, g, sp, hg⟩
  intro p hp
  rcases List.mem_append.mp hp with hp | hp
  · exact (hAdd p hp).2
  · exact goodEntry_append (ht p hp)

theorem decodeName_of_spelled {buf nmExt w : List Nat} {n : Name} {g : Nat}
    (sp : SpelledAt (buf ++ nmExt) buf.length n (buf.length + nmExt.length) g)
    (hg : g ≤ buf.length + 1) (hext : 0 < nmExt.length) :
    decodeName ((buf ++ nmExt) ++ w) buf.length =
      some (n, buf.length + nmExt.length) := by
  apply spelled_decodeName (spelledAt_append sp)
  simp only [List.length_append]
  omega

theorem encodeQuestion_sound (q : Question) (buf : List Nat)
    (t : List (Name × Nat)) (hval : ValidQuestion q = true)
    (ht : ∀ p ∈ t, GoodEntry buf p) :
    ∃ ext t', encodeQuestion q (buf, t) = (buf ++ ext, t') ∧
      (∀ p ∈ t', GoodEntry (buf ++ ext) p) ∧
      ∀ C r2, C = (buf ++ ext) ++ r2 →
        decodeQuestion C buf.length = some (q, (buf ++ ext).length) := by
  rcases q with ⟨nm, ty, cl⟩
  simp only [ValidQuestion, Bool.and_eq_true, decide_eq_true_eq] at hval
  obtain ⟨⟨hn, hty⟩, hcl⟩ := hval
  obtain ⟨nmExt, t', henc, hnz, hgood, g, sp, hg⟩ :=
    encodeName_usable nm buf t hn ht
  refine ⟨nmExt ++ (encodeU16 ty ++ encodeU16 cl), t', ?_, ?_, ?_⟩
  · simp only [encodeQuestion, henc, List.append_assoc]
  · intro p hp
    have := hgood p hp
    have h2 := goodEntry_append (w := encodeU16 ty ++ encodeU16 cl) this
    rw [List.append_assoc] at h2
    exact h2
  · intro C r2 hC
    have hCshape : C = (buf ++ nmExt) ++ (encodeU16 ty ++ encodeU16 cl ++ r2) := by
      rw [hC]; simp [List.append_assoc]
    have hname : decodeName C buf.length = some (nm, buf.length + nmExt.length) := by
      rw [hCshape]; exact decodeName_of_spelled sp hg hnz
    have hty' : getU16 C (buf.length + nmExt.length) = some ty := by
      have := getU16_split (B := C) (p := buf ++ nmExt)
        (q := encodeU16 cl ++ r2) (v := ty)
        (by rw [hCshape]; try simp [List.append_assoc]) hty
      simpa [List.length_append] using this
    have hcl' : getU16 C (buf.length + nmExt.length + 2) = some cl := by
      have := getU16_split (B := C) (p := (buf ++ nmExt) ++ encodeU16 ty)
        (q := r2) (v := cl)
        (by rw [hCshape]; try simp [List.append_assoc]) hcl
      simpa [List.length_append, encodeU16] using this
    simp only [decodeQuestion, hname, hty', hcl', Option.bind_eq_bind,
      Option.some_bind, Option.some.injEq, Prod.mk.injEq,
      List.length_append, encodeU16, List.length_cons, List.length_nil,
      eq_self_iff_true, true_and, and_true]
    try omega

theorem encodeRR_sound (rr : RR) (buf : List Nat)
    (t : List (Name × Nat)) (hval : ValidRR rr = true)
    (ht : ∀ p ∈ t, GoodEntry buf p) :
    ∃ ext t', encodeRR rr (buf, t) = (buf ++ ext, t') ∧
      (∀ p ∈ t', GoodEntry (buf ++ ext) p) ∧
      ∀ C r2, C = (buf ++ ext) ++ r2 →
        decodeRR C buf.length = some (rr, (buf ++ ext).length) := by
  rcases rr with ⟨nm, cl, ttl, rd⟩
  simp only [ValidRR, Bool.and_eq_true, decide_eq_true_eq] at hval
  obtain ⟨⟨⟨⟨hn, hcl⟩, httl⟩, hrd⟩, hrdlen⟩ := hval
  obtain ⟨nmExt, t', henc, hnz, hgood, g, sp, hg⟩ :=
    encodeName_usable nm buf t hn ht
  have hcode : RData.code rd < 2 ^ 16 := by
    cases rd <;> simp [RData.code]
  refine ⟨nmExt ++ (encodeU16 (RData.code rd) ++ encodeU16 cl ++
    encodeU32 ttl ++ encodeU16 (encodeRData rd).length ++ encodeRData rd),
    t', ?_, ?_, ?_⟩
  · simp only [encodeRR, henc, List.append_assoc]
  · intro p hp
    have := hgood p hp
    have h2 := goodEntry_append (w := encodeU16 (RData.code rd) ++
      encodeU16 cl ++ encodeU32 ttl ++
      encodeU16 (encodeRData rd).length ++ encodeRData rd) this
    rw [List.append_assoc] at h2
    exact h2
  · intro C r2 hC
    have hCshape : C = (buf ++ nmExt) ++ (encodeU16 (RData.code rd) ++
        (encodeU16 cl ++ (encodeU32 ttl ++
        (encodeU16 (encodeRData rd).length ++ (encodeRData rd ++ r2))))) := by
      rw [hC]; simp [List.append_assoc]
    have hname : decodeName C buf.length =
        some (nm, buf.length + nmExt.length) := by
      rw [hCshape]
      have := decodeName_of_spelled (w := encodeU16 (RData.code rd) ++
        (encodeU16 cl ++ (encodeU32 ttl ++
        (encodeU16 (encodeRData rd).length ++ (encodeRData rd ++ r2)))))
        sp hg hnz
      exact this
    have hty' : getU16 C (buf.length + nmExt.length) =
        some (RData.code rd) := by
      have := getU16_split (B := C) (p := buf ++ nmExt)
        (q := encodeU16 cl ++ (encodeU32 ttl ++
          (encodeU16 (encodeRData rd).length ++ (encodeRData rd ++ r2))))
        (v := RData.code rd)
        (by rw [hCshape]; try simp [List.append_assoc]) hcode
      simpa [List.length_append] using this
    have hcl' : getU16 C (buf.length + nmExt.length + 2) = some cl := by
      have := getU16_split (B := C)
        (p := (buf ++ nmExt) ++ encodeU16 (RData.code rd))
        (q := encodeU32 ttl ++
          (encodeU16 (encodeRData rd).length ++ (encodeRData rd ++ r2)))
        (v := cl)
        (by rw [hCshape]; try simp [List.append_assoc]) hcl
      simpa [List.length_append, encodeU16] using this
    have httl' : getU32 C (buf.length + nmExt.length + 4) = some ttl := by
      have := getU32_split (B := C)
        (p := (buf ++ nmExt) ++ encodeU16 (RData.code rd) ++ encodeU16 cl)
        (q := encodeU16 (encodeRData rd).length ++ (encodeRData rd ++ r2))
        (v := ttl)
        (by rw [hCshape]; try simp [List.append_assoc]) httl
      simpa [List.length_append, encodeU16] using this
    have hrdl' : getU16 C (buf.length + nmExt.length + 8) =
        some (encodeRData rd).length := by
      have := getU16_split (B := C)
        (p := (buf ++ nmExt) ++ encodeU16 (RData.code rd) ++ encodeU16 cl
          ++ encodeU32 ttl)
        (q := encodeRData rd ++ r2)
        (v := (encodeRData rd).length)
        (by rw [hCshape]; try simp [List.append_assoc]) hrdlen
      simpa [List.length_append, encodeU16, encodeU32] using this
    have hslice : (C.drop (buf.length + nmExt.length + 10)).take
        (encodeRData rd).length = encodeRData rd := by
      have := drop_take_split (B := C)
        (p := (buf ++ nmExt) ++ encodeU16 (RData.code rd) ++ encodeU16 cl
          ++ encodeU32 ttl ++ encodeU16 (encodeRData rd).length)
        (m := encodeRData rd) (q := r2)
        (by rw [hCshape]; try simp [List.append_assoc])
      have hlenpre : ((buf ++ nmExt) ++ encodeU16 (RData.code rd) ++
          encodeU16 cl ++ encodeU32 ttl ++
          encodeU16 (encodeRData rd).length).length =
          buf.length + nmExt.length + 10 := by
        simp only [List.length_append, encodeU16, encodeU32,
          List.length_cons, List.length_nil]
        try omega
      rw [hlenpre] at this
      exact this
    simp only [decodeRR, hname, hty', hcl', httl', hrdl', Option.bind_eq_bind,
      Option.some_bind, hslice, eq_self_iff_true, if_true,
      decodeRData_encode rd hrd, Option.some.injEq, Prod.mk.injEq,
      List.length_append, encodeU16, encodeU32, List.length_cons,
      List.length_nil, true_and, and_true]
    try omega

end Dns

namespace Dns

theorem encodeQuestions_sound (qs : List Question) :
    ∀ (buf : List Nat) (t : List (Name × Nat)),
    qs.all ValidQuestion = true → (∀ p ∈ t, GoodEntry buf p) →
    ∃ ext t', encodeQuestions qs (buf, t) = (buf ++ ext, t') ∧
      (∀ p ∈ t', GoodEntry (buf ++ ext) p) ∧
      ∀ C r2, C = (buf ++ ext) ++ r2 →
        decodeQuestions C qs.length buf.length =
          some (qs, (buf ++ ext).length) := by
  induction qs with
  | nil =>
    intro buf t _ ht
    refine ⟨[], t, by simp [encodeQuestions], ?_, ?_⟩
    · intro p hp
      simp only [List.append_nil]
      exact ht p hp
    · intro C r2 hC
      simp [decodeQuestions]
  | cons q qs ih =>
    intro buf t hval ht
    have hval1 : ValidQuestion q = true ∧ qs.all ValidQuestion = true := by
      simp only [List.all_cons, Bool.and_eq_true] at hval
      exact hval
    obtain ⟨ext1, t1, henc1, hgood1, hdec1⟩ :=
      encodeQuestion_sound q buf t hval1.1 ht
    obtain ⟨ext2, t2, henc2, hgood2, hdec2⟩ :=
      ih (buf ++ ext1) t1 hval1.2 hgood1
    refine ⟨ext1 ++ ext2, t2, ?_, ?_, ?_⟩
    · show encodeQuestions (q :: qs) (buf, t) = _
      simp only [encodeQuestions, henc1, henc2]
      simp [List.append_assoc]
    · intro p hp
      have := hgood2 p hp
      rw [List.append_assoc] at this
      exact this
    · intro C r2 hC
      have d1 := hdec1 C (ext2 ++ r2) (by rw [hC]; simp [List.append_assoc])
      have d2 := hdec2 C r2 (by rw [hC]; simp [List.append_assoc])
      simp only [List.length_append] at d1 d2
      show decodeQuestions C (qs.length + 1) buf.length = _
      simp only [decodeQuestions, d1, Option.bind_eq_bind, Option.some_bind,
        d2, Option.some.injEq, Prod.mk.injEq, List.length_append,
        eq_self_iff_true, true_and, and_true]
      try omega

theorem encodeRRs_sound (rrs : List RR) :
    ∀ (buf : List Nat) (t : List (Name × Nat)),
    rrs.all ValidRR = true → (∀ p ∈ t, GoodEntry buf p) →
    ∃ ext t', encodeRRs rrs (buf, t) = (buf ++ ext, t') ∧
      (∀ p ∈ t', GoodEntry (buf ++ ext) p) ∧
      ∀ C r2, C = (buf ++ ext) ++ r2 →
        decodeRRs C rrs.length buf.length =
          some (rrs, (buf ++ ext).length) := by
  induction rrs with
  | nil =>
    intro buf t _ ht
    refine ⟨[], t, by simp [encodeRRs], ?_, ?_⟩
    · intro p hp
      simp only [List.append_nil]
      exact ht p hp
    · intro C r2 hC
      simp [decodeRRs]
  | cons rr rrs ih =>
    intro buf t hval ht
    have hval1 : ValidRR rr = true ∧ rrs.all ValidRR = true := by
      simp only [List.all_cons, Bool.and_eq_true] at hval
      exact hval
    obtain ⟨ext1, t1, henc1, hgood1, hdec1⟩ :=
      encodeRR_sound rr buf t hval1.1 ht
    obtain ⟨ext2, t2, henc2, hgood2, hdec2⟩ :=
      ih (buf ++ ext1) t1 hval1.2 hgood1
    refine ⟨ext1 ++ ext2, t2, ?_, ?_, ?_⟩
    · show encodeRRs (rr :: rrs) (buf, t) = _
      simp only [encodeRRs, henc1, henc2]
      simp [List.append_assoc]
    · intro p hp
      have := hgood2 p hp
      rw [List.append_assoc] at this
      exact this
    · intro C r2 hC
      have d1 := hdec1 C (ext2 ++ r2) (by rw [hC]; simp [List.append_assoc])
      have d2 := hdec2 C r2 (by rw [hC]; simp [List.append_assoc])
      simp only [List.length_append] at d1 d2
      show decodeRRs C (rrs.length + 1) buf.length = _
      simp only [decodeRRs, d1, Option.bind_eq_bind, Option.some_bind,
        d2, Option.some.injEq, Prod.mk.injEq, List.length_append,
        eq_self_iff_true, true_and, and_true]
      try omega

end Dns

namespace Dns

theorem decodeMsg_encodeMsgRaw (m : Msg) (h : ValidMsg m = true) :
    decodeMsg (encodeMsgRaw m) = some m := by
  rcases m with ⟨hdr, qs, ans, auth, extra⟩
  simp only [ValidMsg, Bool.and_eq_true, decide_eq_true_eq] at h
  obtain ⟨⟨⟨⟨⟨⟨⟨⟨hhdr, hqs⟩, hans⟩, hauth⟩, hextra⟩, hql⟩, hal⟩, hnl⟩, hel⟩
    := h
  have hhdr' : hdr.Id < 2 ^ 16 ∧ hdr.Opcode < 16 ∧ hdr.Rcode < 16 := by
    simp only [ValidMsgHdr, Bool.and_eq_true, decide_eq_true_eq] at hhdr
    exact ⟨hhdr.1.1, hhdr.1.2, hhdr.2⟩
  set hd := encodeU16 hdr.Id ++ hdrByte2 hdr :: hdrByte3 hdr ::
    (encodeU16 qs.length ++ encodeU16 ans.length ++ encodeU16 auth.length ++
     encodeU16 extra.length) with hhd
  obtain ⟨extQ, t1, hencQ, hgood1, hdecQ⟩ :=
    encodeQuestions_sound qs hd [] hqs (by intro p hp; cases hp)
  obtain ⟨extA, t2, hencA, hgood2, hdecA⟩ :=
    encodeRRs_sound ans (hd ++ extQ) t1 hans hgood1
  obtain ⟨extN, t3, hencN, hgood3, hdecN⟩ :=
    encodeRRs_sound auth ((hd ++ extQ) ++ extA) t2 hauth hgood2
  obtain ⟨extE, t4, hencE, hgood4, hdecE⟩ :=
    encodeRRs_sound extra (((hd ++ extQ) ++ extA) ++ extN) t3 hextra hgood3
  have hB : encodeMsgRaw ⟨hdr, qs, ans, auth, extra⟩ =
      (((hd ++ extQ) ++ extA) ++ extN) ++ extE := by
    simp only [encodeMsgRaw]
    rw [← hhd, hencQ, hencA, hencN, hencE]
  rw [hB]
  have hid : getU16 ((((hd ++ extQ) ++ extA) ++ extN) ++ extE) 0 =
      some hdr.Id := by
    have := getU16_split (B := (((hd ++ extQ) ++ extA) ++ extN) ++ extE)
      (p := [])
      (q := hdrByte2 hdr :: hdrByte3 hdr ::
        (encodeU16 qs.length ++ encodeU16 ans.length ++
         encodeU16 auth.length ++ encodeU16 extra.length) ++
        (extQ ++ (extA ++ (extN ++ extE))))
      (v := hdr.Id) (by simp [hhd, List.append_assoc]) hhdr'.1
    simpa using this
  have hb2 : getU8 ((((hd ++ extQ) ++ extA) ++ extN) ++ extE) 2 =
      some (hdrByte2 hdr) := by
    have := getU8_split (B := (((hd ++ extQ) ++ extA) ++ extN) ++ extE)
      (p := encodeU16 hdr.Id)
      (q := hdrByte3 hdr ::
        (encodeU16 qs.length ++ encodeU16 ans.length ++
         encodeU16 auth.length ++ encodeU16 extra.length) ++
        (extQ ++ (extA ++ (extN ++ extE))))
      (v := hdrByte2 hdr) (by simp [hhd, List.append_assoc])
    simpa [encodeU16] using this
  have hb3 : getU8 ((((hd ++ extQ) ++ extA) ++ extN) ++ extE) 3 =
      some (hdrByte3 hdr) := by
    have := getU8_split (B := (((hd ++ extQ) ++ extA) ++ extN) ++ extE)
      (p := encodeU16 hdr.Id ++ [hdrByte2 hdr])
      (q :=
        (encodeU16 qs.length ++ encodeU16 ans.length ++
         encodeU16 auth.length ++ encodeU16 extra.length) ++
        (extQ ++ (extA ++ (extN ++ extE))))
      (v := hdrByte3 hdr) (by simp [hhd, List.append_assoc])
    simpa [encodeU16] using this
  have hqd : getU16 ((((hd ++ extQ) ++ extA) ++ extN) ++ extE) 4 =
      some qs.length := by
    have := getU16_split (B := (((hd ++ extQ) ++ extA) ++ extN) ++ extE)
      (p := encodeU16 hdr.Id ++ [hdrByte2 hdr, hdrByte3 hdr])
      (q := encodeU16 ans.length ++ encodeU16 auth.length ++
        encodeU16 extra.length ++ (extQ ++ (extA ++ (extN ++ extE))))
      (v := qs.length) (by simp [hhd, List.append_assoc]) hql
    simpa [encodeU16] using this
  have han : getU16 ((((hd ++ extQ) ++ extA) ++ extN) ++ extE) 6 =
      some ans.length := by
    have := getU16_split (B := (((hd ++ extQ) ++ extA) ++ extN) ++ extE)
      (p := encodeU16 hdr.Id ++ [hdrByte2 hdr, hdrByte3 hdr] ++
        encodeU16 qs.length)
      (q := encodeU16 auth.length ++
        encodeU16 extra.length ++ (extQ ++ (extA ++ (extN ++ extE))))
      (v := ans.length) (by simp [hhd, List.append_assoc]) hal
    simpa [encodeU16] using this
  have hns : getU16 ((((hd ++ extQ) ++ extA) ++ extN) ++ extE) 8 =
      some auth.length := by
    have := getU16_split (B := (((hd ++ extQ) ++ extA) ++ extN) ++ extE)
      (p := encodeU16 hdr.Id ++ [hdrByte2 hdr, hdrByte3 hdr] ++
        encodeU16 qs.length ++ encodeU16 ans.length)
      (q := encodeU16 extra.length ++ (extQ ++ (extA ++ (extN ++ extE))))
      (v := auth.length) (by simp [hhd, List.append_assoc]) hnl
    simpa [encodeU16] using this
  have har : getU16 ((((hd ++ extQ) ++ extA) ++ extN) ++ extE) 10 =
      some extra.length := by
    have := getU16_split (B := (((hd ++ extQ) ++ extA) ++ extN) ++ extE)
      (p := encodeU16 hdr.Id ++ [hdrByte2 hdr, hdrByte3 hdr] ++
        encodeU16 qs.length ++ encodeU16 ans.length ++
        encodeU16 auth.length)
      (q := extQ ++ (extA ++ (extN ++ extE)))
      (v := extra.length) (by simp [hhd, List.append_assoc]) hel
    simpa [encodeU16] using this
  have hlen12 : hd.length = 12 := by
    simp [hhd, encodeU16]
  have hdq : decodeQuestions ((((hd ++ extQ) ++ extA) ++ extN) ++ extE)
      qs.length 12 = some (qs, (hd ++ extQ).length) := by
    have := hdecQ ((((hd ++ extQ) ++ extA) ++ extN) ++ extE)
      (extA ++ (extN ++ extE)) (by simp [List.append_assoc])
    rwa [hlen12] at this
  have hda : decodeRRs ((((hd ++ extQ) ++ extA) ++ extN) ++ extE)
      ans.length (hd ++ extQ).length =
      some (ans, ((hd ++ extQ) ++ extA).length) :=
    hdecA ((((hd ++ extQ) ++ extA) ++ extN) ++ extE)
      (extN ++ extE) (by simp [List.append_assoc])
  have hdn : decodeRRs ((((hd ++ extQ) ++ extA) ++ extN) ++ extE)
      auth.length ((hd ++ extQ) ++ extA).length =
      some (auth, (((hd ++ extQ) ++ extA) ++ extN).length) :=
    hdecN ((((hd ++ extQ) ++ extA) ++ extN) ++ extE)
      extE (by simp [List.append_assoc])
  have hde : decodeRRs ((((hd ++ extQ) ++ extA) ++ extN) ++ extE)
      extra.length (((hd ++ extQ) ++ extA) ++ extN).length =
      some (extra, ((((hd ++ extQ) ++ extA) ++ extN) ++ extE).length) :=
    hdecE ((((hd ++ extQ) ++ extA) ++ extN) ++ extE)
      [] (by simp)
  simp only [decodeMsg, hid, hb2, hb3, hqd, han, hns, har,
    Option.bind_eq_bind, Option.some_bind]
  rw [decodeHdr_encode hdr hhdr'.2.1 hhdr'.2.2]
  rw [hdq]
  simp only [Option.some_bind]
  rw [hda]
  simp only [Option.some_bind]
  rw [hdn]
  simp only [Option.some_bind]
  rw [hde]
  simp only [Option.some_bind]

end Dns

namespace Dns

/-- C4: for every valid constructed message, packing succeeds and unpacking
the packed bytes yields the message back field-for-field — over every
supported record type, and with owner-name compression (shared suffixes
become back pointers) handled by the decoder. -/
theorem dns_roundtrip (m : Msg) (h : ValidMsg m = true) :
    encodeMsg m = some (encodeMsgRaw m) ∧
    decodeMsg (encodeMsgRaw m) = some m :=
  ⟨by simp [encodeMsg, h], decodeMsg_encodeMsgRaw m h⟩

/-- Witness for C4: the sample message holds one record of each supported
type and names sharing the suffix `example.com`, so its encoding contains
compression pointers. -/
theorem dns_roundtrip_witness :
    encodeMsg sampleMsg = some (encodeMsgRaw sampleMsg) ∧
    decodeMsg (encodeMsgRaw sampleMsg) = some sampleMsg :=
  dns_roundtrip sampleMsg (by rfl)

end Dns
